import Mathlib

/-!
albiondata-client: market-order handler and GUI table model

A shallow embedding of

* `client/operation_auction_get_requests.go`: `operationAuctionGetRequestsResponse.Process`
* `gui/models.go`: `MarketOrderModel.Sort`, `formatNumber`, `formatTime`
* the parts of `db/sqlite.go` these use (`MarketOrderDB`, `db.DB`, `InsertMarketOrder`)

Go values are modelled as follows.

* A Go `string` is an immutable byte sequence: `GoString := List (Fin 256)`. `len` is the list
  length, `s[a:b]` is `(s.take b).drop a`, and `<` is bytewise lexicographic comparison.
* A Go `int` is a Lean `Int` (no arithmetic in the embedded code can leave the 64-bit range).
* Pointers to records that are never mutated after construction are modelled by the record value.
* Side effects (goroutines that call `db.InsertMarketOrder`, the call of
  `sendMsgToPublicUploaders`) are recorded, in program order, in a list of `Effect`s.
  Log output is not recorded.
-/

namespace AlbionData

/-! ## Go strings -/

/-- A Go `string`: a sequence of bytes. -/
abbrev GoString := List (Fin 256)

/-- The bytes of an ASCII literal. -/
def ascii (s : String) : GoString := s.data.map (fun c => Fin.ofNat c.toNat)

/-! ## `client/operation_auction_get_requests.go` -/

/-- Modelled from the spec: `lib.MarketOrder` is declared in package `lib`, which is not among the
sources. The spec lists a Market Order as: order identifier, item identifier, optional item-group
identifier, location identifier, quality level, enchantment level, price, amount, auction type,
expiration. Field names and types are the ones `db.InsertMarketOrder` reads (`db/sqlite.go`). -/
structure MarketOrder where
  ID : Int
  ItemID : GoString
  GroupTypeId : GoString
  LocationID : GoString
  QualityLevel : Int
  EnchantmentLevel : Int
  Price : Int
  Amount : Int
  AuctionType : GoString
  Expires : GoString
deriving DecidableEq, Repr

/-- The Go zero value `lib.MarketOrder{}`. -/
def MarketOrder.zero : MarketOrder :=
  { ID := 0, ItemID := [], GroupTypeId := [], LocationID := [], QualityLevel := 0,
    EnchantmentLevel := 0, Price := 0, Amount := 0, AuctionType := [], Expires := [] }

/-- Modelled from the spec: `lib.MarketUpload` is declared in package `lib`; the handler builds it
as `lib.MarketUpload{Orders: orders}`, an ordered collection of Market Orders. -/
structure MarketUpload where
  Orders : List MarketOrder
deriving DecidableEq, Repr

/-- Modelled from the spec: `albionState` is declared outside the sources. The spec describes the
Session State as holding a current world-location identifier and a validity flag. -/
structure albionState where
  LocationId : GoString
  known : Bool
deriving DecidableEq, Repr

/-- Modelled from the spec: `IsValidLocation()` returns true only in `Known`. -/
def albionState.IsValidLocation (state : albionState) : Bool := state.known

/-- The handler type: `MarketOrders []string` (mapstructure key `"0"`). -/
structure operationAuctionGetRequestsResponse where
  MarketOrders : List GoString
deriving DecidableEq, Repr

/-- What `Process` reads from outside the handler and the session state. -/
structure Env where
  /-- Call `json.Unmarshal([]byte(v), order)` of `encoding/json`: the order as the decoder leaves it,
  and whether the returned `err` is non-nil. -/
  jsonUnmarshal : GoString → MarketOrder → MarketOrder × Bool
  /-- Whether `db.DB != nil` (`db/sqlite.go`). -/
  dbOpen : Bool
  /-- The constant `lib.NatsMarketOrdersIngest`. -/
  NatsMarketOrdersIngest : GoString
  /-- The string of the identifier drawn by `uuid.NewV4()`. -/
  identifier : GoString

/-- The side effects `Process` can issue. -/
inductive Effect where
  /-- The goroutine `go func(o) { db.InsertMarketOrder(o) }(order)`. -/
  | InsertMarketOrder (o : MarketOrder)
  /-- The call `sendMsgToPublicUploaders(upload, topic, state, identifier)`. -/
  | sendMsgToPublicUploaders (upload : MarketUpload) (topic : GoString) (state : albionState)
      (identifier : GoString)
deriving DecidableEq, Repr

/-- One iteration of the `for _, v := range op.MarketOrders` loop: a fresh `&lib.MarketOrder{}`
is passed to `json.Unmarshal`; a non-nil `err` is only logged; then `LocationID` is overwritten
with `state.LocationId`. The result is the order that is appended to `orders`. -/
def convert (env : Env) (state : albionState) (v : GoString) : MarketOrder :=
  let order := MarketOrder.zero
  let (order, _err) := env.jsonUnmarshal v order
  { order with LocationID := state.LocationId }

/-- The loop `for _, v := range op.MarketOrders { ...; orders = append(orders, order) }`,
started with the `orders` accumulated so far. -/
def convertLoop (env : Env) (state : albionState) : List GoString → List MarketOrder →
    List MarketOrder
  | [], orders => orders
  | v :: rest, orders => convertLoop env state rest (orders ++ [convert env state v])

/-- Go function `func (op operationAuctionGetRequestsResponse) Process(state *albionState)`: the effects it
issues, in program order. -/
def Process (env : Env) (op : operationAuctionGetRequestsResponse) (state : albionState) :
    List Effect :=
  if !state.IsValidLocation then
    []
  else
    let orders := convertLoop env state op.MarketOrders []
    if orders.length < 1 then
      []
    else
      let saved := if env.dbOpen then orders.map Effect.InsertMarketOrder else []
      let upload : MarketUpload := { Orders := orders }
      saved ++
        [Effect.sendMsgToPublicUploaders upload env.NatsMarketOrdersIngest state env.identifier]

/-- The orders for which a `db.InsertMarketOrder` request was issued. -/
def persisted : List Effect → List MarketOrder
  | [] => []
  | Effect.InsertMarketOrder o :: es => o :: persisted es
  | Effect.sendMsgToPublicUploaders _ _ _ _ :: es => persisted es

/-- The calls of `sendMsgToPublicUploaders`: batch, topic and identifier of each. -/
def uploads : List Effect → List (List MarketOrder × GoString × GoString)
  | [] => []
  | Effect.InsertMarketOrder _ :: es => uploads es
  | Effect.sendMsgToPublicUploaders u topic _ ident :: es => (u.Orders, topic, ident) :: uploads es

/-- The batches handed to `sendMsgToPublicUploaders`. -/
def uploadedBatches (es : List Effect) : List (List MarketOrder) :=
  (uploads es).map (fun u => u.1)

/-- The document `{}`: an object without members. -/
def docEmptyObject : GoString := ascii "\x7b\x7d"

/-- The document `{"Amount":2}`. -/
def docAmount : GoString := ascii "\x7b\"Amount\":2\x7d"

/-- The document `{"LocationId":"9999","Amount":3}`: a payload that carries a location. -/
def docLocation : GoString := ascii "\x7b\"LocationId\":\"9999\",\"Amount\":3\x7d"

/-- The document `not json`, which is not valid JSON. -/
def docBroken : GoString := ascii "not json"

/-- A stand-in for `encoding/json` used to evaluate `Process` on concrete inputs. It decodes the
three documents `docEmptyObject`, `docAmount` and `docLocation` as `json.Unmarshal` does (members
set the fields of the same name, other fields are left as they are) and reports every other
document as a syntax error, which leaves the target untouched; `docBroken` is such a document. -/
def sampleUnmarshal (v : GoString) (order : MarketOrder) : MarketOrder × Bool :=
  if v = docEmptyObject then
    (order, false)
  else if v = docAmount then
    ({ order with Amount := 2 }, false)
  else if v = docLocation then
    ({ order with LocationID := ascii "9999", Amount := 3 }, false)
  else
    (order, true)

/-- A concrete environment: database open, sample decoder. -/
def sampleEnv : Env :=
  { jsonUnmarshal := sampleUnmarshal, dbOpen := true,
    NatsMarketOrdersIngest := ascii "marketorders.ingest", identifier := ascii "id-1" }

/-- A session state with a known location. -/
def sampleState : albionState := { LocationId := ascii "3005", known := true }


/-! ## `db/sqlite.go` -/

/-- Go type `type MarketOrderDB struct`: a market order as stored in the database. -/
structure MarketOrderDB where
  ID : Int
  OrderID : Int
  ItemID : GoString
  ItemGroupID : GoString
  LocationID : GoString
  QualityLevel : Int
  EnchantmentLevel : Int
  Price : Int
  Amount : Int
  AuctionType : GoString
  Expires : GoString
  CapturedAt : GoString
deriving DecidableEq, Repr, Inhabited

/-! ## The Go library routine `sort.SliceStable`

`MarketOrderModel.Sort` calls `sort.SliceStable(m.orders, less)` of the Go standard library
(`sort/slice.go`, `sort/zsortfunc.go`). Its documented contract only covers a `less` that is a
strict weak ordering, which the descending comparison of `Sort` is not, so the library routine is
embedded as it is written: insertion sort on blocks of 20 elements followed by rounds of in-place
`symMerge`. The slice is modelled by the list of its elements; `data.Less(i, j)` and
`data.Swap(i, j)` are the two operations of the Go type `lessSwap`. Every loop is a recursion on the
number of iterations that remain. -/

/-- The element `data[k]` (the default element when `k` is out of range, where Go panics). -/
def elem {α : Type} [Inhabited α] (data : List α) (k : Nat) : α := data.getD k default

/-- Method `data.Less(i, j)`: the closure `less` applied to the elements at `i` and `j`. -/
def Less {α : Type} [Inhabited α] (less : α → α → Bool) (data : List α) (i j : Nat) : Bool :=
  less (elem data i) (elem data j)

/-- Method `data.Swap(i, j)`: exchanges the elements at `i` and `j`. -/
def Swap {α : Type} [Inhabited α] (data : List α) (i j : Nat) : List α :=
  (data.set i (elem data j)).set j (elem data i)

/-- The inner loop of `insertionSort_func`, entered with loop variable `j`:
`for ; j > a && data.Less(j, j-1); j-- { data.Swap(j, j-1) }`. -/
def insertionSortInner {α : Type} [Inhabited α] (less : α → α → Bool) (a : Nat) : Nat → List α → List α
  | 0, data => data
  | j + 1, data =>
    if j + 1 > a && Less less data (j + 1) j then
      insertionSortInner less a j (Swap data (j + 1) j)
    else
      data

/-- The outer loop of `insertionSort_func`, entered with loop variable `i` and at most `fuel`
iterations to go: `for ; i < b; i++ { for j := i; ...; j-- { ... } }`. -/
def insertionSortOuter {α : Type} [Inhabited α] (less : α → α → Bool) (a b : Nat) :
    Nat → Nat → List α → List α
  | 0, _, data => data
  | fuel + 1, i, data =>
    if i < b then
      insertionSortOuter less a b fuel (i + 1) (insertionSortInner less a i data)
    else
      data

/-- Go function `func insertionSort_func(data lessSwap, a, b int)`: sorts `data[a:b]` by insertion. -/
def insertionSort {α : Type} [Inhabited α] (less : α → α → Bool) (data : List α) (a b : Nat) : List α :=
  insertionSortOuter less a b (b - a) (a + 1) data

/-- Go function `func swapRange_func(data lessSwap, a, b, n int)`:
`for i := 0; i < n; i++ { data.Swap(a+i, b+i) }`, entered with loop variable `i`. -/
def swapRangeLoop {α : Type} [Inhabited α] (a b : Nat) : Nat → Nat → List α → List α
  | 0, _, data => data
  | fuel + 1, i, data => swapRangeLoop a b fuel (i + 1) (Swap data (a + i) (b + i))

/-- Go function `func swapRange_func(data lessSwap, a, b, n int)`. -/
def swapRange {α : Type} [Inhabited α] (data : List α) (a b n : Nat) : List α :=
  swapRangeLoop a b n 0 data

/-- The loop of `rotate_func`, with `i` and `j` the loop variables:
`for i != j { if i > j { swapRange(m-i, m, j); i -= j } else { swapRange(m-i, m+j-i, i); j -= i } }`
followed by the final `swapRange(data, m-i, m, i)`. -/
def rotateLoop {α : Type} [Inhabited α] (m : Nat) : Nat → Nat → Nat → List α → List α
  | 0, _, _, data => data
  | fuel + 1, i, j, data =>
    if i ≠ j then
      if i > j then
        rotateLoop m fuel (i - j) j (swapRange data (m - i) m j)
      else
        rotateLoop m fuel i (j - i) (swapRange data (m - i) (m + j - i) i)
    else
      swapRange data (m - i) m i

/-- Go function `func rotate_func(data lessSwap, a, m, b int)`: exchanges the adjacent blocks `data[a:m]` and
`data[m:b]`. -/
def rotate {α : Type} [Inhabited α] (data : List α) (a m b : Nat) : List α :=
  let i := m - a
  let j := b - m
  rotateLoop m (i + j + 1) i j data

/-- First binary search of `symMerge_func` (case `m-a == 1`):
`for i < j { h := int(uint(i+j) >> 1); if data.Less(h, a) { i = h + 1 } else { j = h } }`;
the value of `i` at exit. -/
def searchAfter {α : Type} [Inhabited α] (less : α → α → Bool) (data : List α) (a : Nat) : Nat → Nat → Nat → Nat
  | 0, i, _ => i
  | fuel + 1, i, j =>
    if i < j then
      let h := (i + j) / 2
      if Less less data h a then searchAfter less data a fuel (h + 1) j
      else searchAfter less data a fuel i h
    else
      i

/-- Second binary search of `symMerge_func` (case `b-m == 1`):
`for i < j { h := int(uint(i+j) >> 1); if !data.Less(m, h) { i = h + 1 } else { j = h } }`;
the value of `i` at exit. -/
def searchBefore {α : Type} [Inhabited α] (less : α → α → Bool) (data : List α) (m : Nat) :
    Nat → Nat → Nat → Nat
  | 0, i, _ => i
  | fuel + 1, i, j =>
    if i < j then
      let h := (i + j) / 2
      if !Less less data m h then searchBefore less data m fuel (h + 1) j
      else searchBefore less data m fuel i h
    else
      i

/-- Third binary search of `symMerge_func` (general case):
`for start < r { c := int(uint(start+r) >> 1); if !data.Less(p-c, c) { start = c + 1 } else { r = c } }`;
the value of `start` at exit. -/
def searchSplit {α : Type} [Inhabited α] (less : α → α → Bool) (data : List α) (p : Nat) :
    Nat → Nat → Nat → Nat
  | 0, start, _ => start
  | fuel + 1, start, r =>
    if start < r then
      let c := (start + r) / 2
      if !Less less data (p - c) c then searchSplit less data p fuel (c + 1) r
      else searchSplit less data p fuel start c
    else
      start

/-- Loop `for k := a; k < i-1; k++ { data.Swap(k, k+1) }`, entered with loop variable `k`. -/
def shiftUp {α : Type} [Inhabited α] (i : Nat) : Nat → Nat → List α → List α
  | 0, _, data => data
  | fuel + 1, k, data =>
    if k < i - 1 then shiftUp i fuel (k + 1) (Swap data k (k + 1)) else data

/-- Loop `for k := m; k > i; k-- { data.Swap(k, k-1) }`, entered with loop variable `k`. -/
def shiftDown {α : Type} [Inhabited α] (i : Nat) : Nat → List α → List α
  | 0, data => data
  | k + 1, data => if k + 1 > i then shiftDown i k (Swap data (k + 1) k) else data

/-- Go function `func symMerge_func(data lessSwap, a, m, b int)`: merges the sorted runs `data[a:m]` and
`data[m:b]` in place. `fuel` bounds the recursion depth; `b - a` suffices. -/
def symMerge {α : Type} [Inhabited α] (less : α → α → Bool) :
    Nat → List α → Nat → Nat → Nat → List α
  | 0, data, _, _, _ => data
  | fuel + 1, data, a, m, b =>
    if m - a = 1 then
      let i := searchAfter less data a (b - m) m b
      shiftUp i (i - a) a data
    else if b - m = 1 then
      let i := searchBefore less data m (m - a) a m
      shiftDown i m data
    else
      let mid := (a + b) / 2
      let n := mid + m
      let start := if m > mid then n - b else a
      let r := if m > mid then mid else m
      let p := n - 1
      let start := searchSplit less data p (r - start) start r
      let end_ := n - start
      let data := if start < m && m < end_ then rotate data start m end_ else data
      let data := if a < start && start < mid then symMerge less fuel data a start mid else data
      let data := if mid < end_ && end_ < b then symMerge less fuel data mid end_ b else data
      data

/-- First loop of `stable_func`, with loop variables `a`, `b`:
`for b <= n { insertionSort(data, a, b); a = b; b += blockSize }`; returns the data and `a`. -/
def stableBlocks {α : Type} [Inhabited α] (less : α → α → Bool) (n blockSize : Nat) :
    Nat → List α → Nat → Nat → List α × Nat
  | 0, data, a, _ => (data, a)
  | fuel + 1, data, a, b =>
    if b ≤ n then stableBlocks less n blockSize fuel (insertionSort less data a b) b (b + blockSize)
    else (data, a)

/-- Inner loop of the merge rounds of `stable_func`, with loop variables `a`, `b`:
`for b <= n { symMerge(data, a, a+blockSize, b); a = b; b += 2 * blockSize }`;
returns the data and `a`. -/
def stablePass {α : Type} [Inhabited α] (less : α → α → Bool) (n blockSize : Nat) :
    Nat → List α → Nat → Nat → List α × Nat
  | 0, data, a, _ => (data, a)
  | fuel + 1, data, a, b =>
    if b ≤ n then
      stablePass less n blockSize fuel (symMerge less (b - a) data a (a + blockSize) b) b
        (b + 2 * blockSize)
    else (data, a)

/-- The merge rounds of `stable_func`:
`for blockSize < n { a, b = 0, 2*blockSize; for b <= n {...};
if m := a + blockSize; m < n { symMerge(data, a, m, n) }; blockSize *= 2 }`. -/
def stableRounds {α : Type} [Inhabited α] (less : α → α → Bool) (n : Nat) :
    Nat → List α → Nat → List α
  | 0, data, _ => data
  | fuel + 1, data, blockSize =>
    if blockSize < n then
      let (data, a) := stablePass less n blockSize n data 0 (2 * blockSize)
      let m := a + blockSize
      let data := if m < n then symMerge less (n - a) data a m n else data
      stableRounds less n fuel data (blockSize * 2)
    else
      data

/-- Go function `func stable_func(data lessSwap, n int)`. -/
def stable {α : Type} [Inhabited α] (less : α → α → Bool) (data : List α) (n : Nat) : List α :=
  let blockSize := 20
  let (data, a) := stableBlocks less n blockSize n data 0 blockSize
  let data := insertionSort less data a n
  stableRounds less n n data blockSize

/-- Go function `func SliceStable(x any, less func(i, j int) bool)` on a slice `x` whose `less(i, j)` compares
the elements `x[i]` and `x[j]`: runs `stable_func(lessSwap{less, swap}, len(x))` and returns the
slice contents afterwards. -/
def SliceStable {α : Type} [Inhabited α] (x : List α) (less : α → α → Bool) : List α :=
  stable less x x.length

/-! ## `gui/models.go` -/

/-- Type `walk.SortOrder` (`type SortOrder int`). -/
abbrev SortOrder := Int

/-- Constant `walk.SortAscending` (`SortAscending SortOrder = iota`). -/
def SortAscending : SortOrder := 0

/-- Constant `walk.SortDescending`. -/
def SortDescending : SortOrder := 1

/-- Go type `type MarketOrderModel struct`; the embedded `walk.TableModelBase` and `walk.SorterBase`, which
only publish events to the table view, are left out. -/
structure MarketOrderModel where
  sortColumn : Int
  sortOrder : SortOrder
  orders : List MarketOrderDB
deriving DecidableEq, Repr

/-- The comparison closure passed to `sort.SliceStable` in `Sort`, on the two elements
`a, b := m.orders[i], m.orders[j]`; `sortOrder` is `m.sortOrder` as the closure reads it. -/
def sortLess (sortOrder : SortOrder) (col : Int) (a b : MarketOrderDB) : Bool :=
  let c := fun (ls : Bool) => if sortOrder = SortAscending then ls else !ls
  if col = 0 then c (decide (a.OrderID < b.OrderID))
  else if col = 1 then c (decide (a.ItemID < b.ItemID))
  else if col = 2 then c (decide (a.LocationID < b.LocationID))
  else if col = 3 then c (decide (a.QualityLevel < b.QualityLevel))
  else if col = 4 then c (decide (a.EnchantmentLevel < b.EnchantmentLevel))
  else if col = 5 then c (decide (a.Price < b.Price))
  else if col = 6 then c (decide (a.Amount < b.Amount))
  else if col = 7 then c (decide (a.AuctionType < b.AuctionType))
  else if col = 8 then c (decide (a.CapturedAt < b.CapturedAt))
  else false

/-- Go function `func (m *MarketOrderModel) Sort(col int, order walk.SortOrder) error`: the model after the
call. The final `m.SorterBase.Sort(col, order)` of the `walk` library records the column and order
and publishes the sort-changed event; it does not touch `m.orders`. -/
def MarketOrderModel.Sort (m : MarketOrderModel) (col : Int) (order : SortOrder) :
    MarketOrderModel :=
  let m := { m with sortColumn := col }
  let m := { m with sortOrder := order }
  { m with orders := SliceStable m.orders (sortLess m.sortOrder col) }

/-- Decimal digits of a natural number, most significant first, as ASCII bytes. -/
def decimal (n : Nat) : GoString := (Nat.toDigits 10 n).map (fun c => Fin.ofNat c.toNat)

/-- Formatting call `fmt.Sprintf("%d", n)`. -/
def sprintf_d (n : Int) : GoString :=
  if n < 0 then 45 :: decimal n.natAbs else decimal n.natAbs

/-- Formatting call `fmt.Sprintf("%03d", n)`: decimal, padded with zeros after the sign to a width of 3. -/
def sprintf_03d (n : Int) : GoString :=
  if n < 0 then
    45 :: (List.replicate (2 - (decimal n.natAbs).length) 48 ++ decimal n.natAbs)
  else
    List.replicate (3 - (decimal n.natAbs).length) 48 ++ decimal n.natAbs

/-- Go function `func formatNumber(n int) string`. The Go operators `/` and `%` on `int` truncate toward zero. -/
def formatNumber (n : Int) : GoString :=
  if n < 1000 then
    sprintf_d n
  else if n < 1000000 then
    sprintf_d (n.tdiv 1000) ++ [44] ++ sprintf_03d (n.tmod 1000)
  else
    sprintf_d (n.tdiv 1000000) ++ [44] ++ sprintf_03d ((n.tdiv 1000).tmod 1000) ++ [44] ++
      sprintf_03d (n.tmod 1000)

/-- Go function `func formatTime(timestamp string) string`. -/
def formatTime (timestamp : GoString) : GoString :=
  if timestamp.length ≥ 19 then
    (timestamp.take 19).drop 11
  else
    timestamp

/-- A row with the given order id, price and capture time. -/
def sampleRow (id price : Int) (capturedAt : String) : MarketOrderDB :=
  { ID := id, OrderID := id, ItemID := ascii "T4_BAG", ItemGroupID := [],
    LocationID := ascii "3005", QualityLevel := 1, EnchantmentLevel := 0, Price := price,
    Amount := 1, AuctionType := ascii "offer", Expires := [], CapturedAt := ascii capturedAt }


/-! ## Specification vocabulary for the sort -/

/-- The closure `less` agrees with a transitive relation `le`: `less x y` implies `le x y`, and
`!less x y` implies `le y x`. Both a strict comparison `x < y` (with `le` the order `≤`) and its
negation `!(x < y)` (with `le` the order `≥`) are of this kind. -/
structure Compat {α : Type} (less : α → α → Bool) (le : α → α → Prop) : Prop where
  trans : ∀ x y z, le x y → le y z → le x z
  of_less : ∀ x y, less x y = true → le x y
  of_not_less : ∀ x y, less x y = false → le y x

/-- The slice section `data[a:b]` is sorted with respect to `le`. -/
def SortedOn {α : Type} [Inhabited α] (le : α → α → Prop) (data : List α) (a b : Nat) : Prop :=
  ∀ i j, a ≤ i → i < j → j < b → le (elem data i) (elem data j)

/-- The slice `data'` has the elements of `data`, rearranged within positions `a ≤ k < b` only. -/
def PermOn {α : Type} [Inhabited α] (data data' : List α) (a b : Nat) : Prop :=
  data'.length = data.length ∧
    ∃ σ : Equiv.Perm Nat, (∀ k, k < a ∨ b ≤ k → σ k = k) ∧ ∀ k, elem data' k = elem data (σ k)

/-- The order of two rows by the key of column `col` (`OrderID`, `ItemID`, `LocationID`,
`QualityLevel`, `EnchantmentLevel`, `Price`, `Amount`, `AuctionType`, `CapturedAt` for columns
0 to 8): `colLE col a b` says that the key of `a` is at most the key of `b`. Strings compare
bytewise, as the Go operator `<` does. -/
def colLE (col : Int) (a b : MarketOrderDB) : Prop :=
  if col = 0 then a.OrderID ≤ b.OrderID
  else if col = 1 then a.ItemID ≤ b.ItemID
  else if col = 2 then a.LocationID ≤ b.LocationID
  else if col = 3 then a.QualityLevel ≤ b.QualityLevel
  else if col = 4 then a.EnchantmentLevel ≤ b.EnchantmentLevel
  else if col = 5 then a.Price ≤ b.Price
  else if col = 6 then a.Amount ≤ b.Amount
  else if col = 7 then a.AuctionType ≤ b.AuctionType
  else if col = 8 then a.CapturedAt ≤ b.CapturedAt
  else True

/-- A model holding three rows with prices 5, 7 and 6. -/
def sampleModel : MarketOrderModel :=
  { sortColumn := 0, sortOrder := SortAscending,
    orders := [sampleRow 2 5 "2025-11-30 10:30:15", sampleRow 1 7 "2025-11-30 10:30:16",
      sampleRow 3 6 "2025-11-30 10:30:17"] }


/-! ## Theorems about `Process` -/

theorem convertLoop_eq (env : Env) (state : albionState) (docs : List GoString)
    (acc : List MarketOrder) :
    convertLoop env state docs acc = acc ++ docs.map (convert env state) := by
  induction docs generalizing acc with
  | nil => simp [convertLoop]
  | cons v rest ih => simp [convertLoop, ih]

theorem convert_LocationID (env : Env) (state : albionState) (v : GoString) :
    (convert env state v).LocationID = state.LocationId := by
  simp [convert]

theorem persisted_map_insert (os : List MarketOrder) (es : List Effect) :
    persisted (os.map Effect.InsertMarketOrder ++ es) = os ++ persisted es := by
  induction os with
  | nil => simp
  | cons o os ih => simp [persisted, ih]

theorem uploads_map_insert (os : List MarketOrder) (es : List Effect) :
    uploads (os.map Effect.InsertMarketOrder ++ es) = uploads es := by
  induction os with
  | nil => simp
  | cons o os ih => simp [uploads, ih]

/-- The effects of `Process` in closed form. -/
theorem Process_eq (env : Env) (op : operationAuctionGetRequestsResponse) (state : albionState) :
    Process env op state =
      if state.IsValidLocation = true ∧ op.MarketOrders ≠ [] then
        (if env.dbOpen then
            (op.MarketOrders.map (convert env state)).map Effect.InsertMarketOrder else []) ++
          [Effect.sendMsgToPublicUploaders ⟨op.MarketOrders.map (convert env state)⟩
            env.NatsMarketOrdersIngest state env.identifier]
      else [] := by
  unfold Process
  rw [convertLoop_eq]
  cases hv : state.IsValidLocation
  · simp
  · cases hd : op.MarketOrders with
    | nil => simp
    | cons v rest => simp

theorem persisted_Process (env : Env) (op : operationAuctionGetRequestsResponse)
    (state : albionState) :
    persisted (Process env op state) =
      if state.IsValidLocation = true ∧ env.dbOpen = true then
        op.MarketOrders.map (convert env state) else [] := by
  rw [Process_eq]
  by_cases hv : state.IsValidLocation = true
  · by_cases hd : op.MarketOrders = []
    · simp [hv, hd, persisted]
    · cases hdb : env.dbOpen
      · simp [hv, hd, persisted]
      · simp only [hv, hd, ne_eq, not_false_eq_true, and_self, if_true, persisted_map_insert]
        simp [persisted]
  · simp [hv, persisted]

theorem uploads_Process (env : Env) (op : operationAuctionGetRequestsResponse)
    (state : albionState) :
    uploads (Process env op state) =
      if state.IsValidLocation = true ∧ op.MarketOrders ≠ [] then
        [(op.MarketOrders.map (convert env state), env.NatsMarketOrdersIngest, env.identifier)]
      else [] := by
  rw [Process_eq]
  by_cases hv : state.IsValidLocation = true
  · by_cases hd : op.MarketOrders = []
    · simp [hv, hd, uploads]
    · cases hdb : env.dbOpen
      · simp [hv, hd, uploads]
      · simp only [hv, hd, ne_eq, not_false_eq_true, and_self, if_true, uploads_map_insert]
        simp [uploads]
  · simp [hv, uploads]


/-- Claim C1 (the code departs from the claim): with one sub-document that parses
(`{"Amount":2}`, so N = 1) and one that does not (`not json`), the batch handed to
`sendMsgToPublicUploaders` holds two orders, not one: the sub-document whose `json.Unmarshal`
failed still contributes an order, the zero order stamped with the session location. -/
theorem Process_forwards_unparsed_document :
    (sampleUnmarshal docAmount MarketOrder.zero).2 = false ∧
    (sampleUnmarshal docBroken MarketOrder.zero).2 = true ∧
    uploadedBatches (Process sampleEnv ⟨[docAmount, docBroken]⟩ sampleState) =
      [[{ MarketOrder.zero with Amount := 2, LocationID := ascii "3005" },
        { MarketOrder.zero with LocationID := ascii "3005" }]] := by
  decide

/-- Claim C2: every order that `Process` forwards, to persistence or in an uploaded batch, carries
`LocationID = state.LocationId`, whatever the decoder made of the raw sub-document. -/
theorem Process_stamps_location (env : Env) (op : operationAuctionGetRequestsResponse)
    (state : albionState) (o : MarketOrder)
    (h : o ∈ persisted (Process env op state) ∨
      ∃ batch ∈ uploadedBatches (Process env op state), o ∈ batch) :
    o.LocationID = state.LocationId := by
  have key : ∀ o ∈ op.MarketOrders.map (convert env state), o.LocationID = state.LocationId := by
    intro o ho
    obtain ⟨v, _, rfl⟩ := List.mem_map.mp ho
    exact convert_LocationID env state v
  rcases h with h | ⟨batch, hb, ho⟩
  · rw [persisted_Process] at h
    split at h
    · exact key o h
    · simp at h
  · rw [uploadedBatches, uploads_Process] at hb
    split at hb
    · simp only [List.map_cons, List.map_nil, List.mem_singleton] at hb
      subst hb
      exact key o ho
    · simp at hb

theorem Process_stamps_location_witness :
    ({ MarketOrder.zero with Amount := 3, LocationID := ascii "3005" } : MarketOrder) ∈
        persisted (Process sampleEnv ⟨[docLocation]⟩ sampleState) ∧
      (sampleUnmarshal docLocation MarketOrder.zero).1.LocationID = ascii "9999" ∧
      ({ MarketOrder.zero with Amount := 3, LocationID := ascii "3005" } : MarketOrder).LocationID
        = sampleState.LocationId :=
  ⟨by decide, by decide,
    Process_stamps_location sampleEnv ⟨[docLocation]⟩ sampleState _ (Or.inl (by decide))⟩

/-- Claim C3: when `state.IsValidLocation()` is false, `Process` issues no effect at all: no
`db.InsertMarketOrder` request and no call of `sendMsgToPublicUploaders`, whether or not the
database is open. -/
theorem Process_invalid_location (env : Env) (op : operationAuctionGetRequestsResponse)
    (state : albionState) (h : state.IsValidLocation = false) :
    Process env op state = [] := by
  simp [Process, h]

theorem Process_invalid_location_witness :
    albionState.IsValidLocation ⟨ascii "3005", false⟩ = false ∧
      Process sampleEnv ⟨[docAmount]⟩ ⟨ascii "3005", false⟩ = [] :=
  ⟨rfl, Process_invalid_location sampleEnv ⟨[docAmount]⟩ ⟨ascii "3005", false⟩ rfl⟩

/-- Claim C4 (the code departs from the claim): for the empty list `Process` does nothing, but
for the one-element list whose only sub-document fails to parse it still issues a
`db.InsertMarketOrder` request and a call of `sendMsgToPublicUploaders`, both for the zero order
stamped with the session location. -/
theorem Process_acts_on_unparsed_only :
    Process sampleEnv ⟨[]⟩ sampleState = [] ∧
    (sampleUnmarshal docBroken MarketOrder.zero).2 = true ∧
    Process sampleEnv ⟨[docBroken]⟩ sampleState =
      [Effect.InsertMarketOrder { MarketOrder.zero with LocationID := ascii "3005" },
       Effect.sendMsgToPublicUploaders
        ⟨[{ MarketOrder.zero with LocationID := ascii "3005" }]⟩
        (ascii "marketorders.ingest") sampleState (ascii "id-1")] := by
  decide

/-- Claim C5: the calls of `sendMsgToPublicUploaders` (whether there is one, its batch, its topic and
identifier) do not depend on whether `db.DB` is nil, and the topic is
`lib.NatsMarketOrdersIngest`. -/
theorem Process_uploads_independent_of_db (env : Env) (op : operationAuctionGetRequestsResponse)
    (state : albionState) (b₁ b₂ : Bool) :
    uploads (Process { env with dbOpen := b₁ } op state) =
        uploads (Process { env with dbOpen := b₂ } op state) ∧
      ∀ u ∈ uploads (Process { env with dbOpen := b₁ } op state),
        u.2.1 = env.NatsMarketOrdersIngest := by
  constructor
  · rw [uploads_Process, uploads_Process]
    rfl
  · intro u hu
    rw [uploads_Process] at hu
    split at hu
    · simp only [List.mem_singleton] at hu
      subst hu
      rfl
    · simp at hu

/-- Claim C6: with a valid location and `db.DB` non-nil, the orders for which `db.InsertMarketOrder` is
requested are, as a multiset, exactly the orders of the uploaded batch (none when no batch is
uploaded). -/
theorem Process_persists_uploaded_orders (env : Env) (op : operationAuctionGetRequestsResponse)
    (state : albionState) (hv : state.IsValidLocation = true) (hdb : env.dbOpen = true) :
    (↑(persisted (Process env op state)) : Multiset MarketOrder) =
      ↑(uploadedBatches (Process env op state)).flatten := by
  rw [persisted_Process, uploadedBatches, uploads_Process]
  by_cases hd : op.MarketOrders = []
  · simp [hv, hdb, hd]
  · simp [hv, hdb, hd]

theorem Process_persists_uploaded_orders_witness :
    sampleState.IsValidLocation = true ∧ sampleEnv.dbOpen = true ∧
      (↑(persisted (Process sampleEnv ⟨[docAmount, docLocation]⟩ sampleState)) :
          Multiset MarketOrder) =
        ↑(uploadedBatches (Process sampleEnv ⟨[docAmount, docLocation]⟩ sampleState)).flatten :=
  ⟨rfl, rfl,
    Process_persists_uploaded_orders sampleEnv ⟨[docAmount, docLocation]⟩ sampleState rfl rfl⟩

/-- Claim C7: with a valid location and a non-empty `MarketOrders` list, exactly one batch is uploaded,
it has one order per sub-document, and the order at position `k` is the one built from
sub-document `k`; so orders appear in the relative order of the sub-documents they come from and
no sub-document yields more than one order. -/
theorem Process_batch_follows_documents (env : Env) (op : operationAuctionGetRequestsResponse)
    (state : albionState) (hv : state.IsValidLocation = true) (hne : op.MarketOrders ≠ []) :
    ∃ batch, uploadedBatches (Process env op state) = [batch] ∧
      batch.length = op.MarketOrders.length ∧
      ∀ (k : Nat) (hk : k < batch.length) (hk' : k < op.MarketOrders.length),
        batch[k] = convert env state op.MarketOrders[k] := by
  refine ⟨op.MarketOrders.map (convert env state), ?_, by simp, ?_⟩
  · rw [uploadedBatches, uploads_Process]
    simp [hv, hne]
  · intro k hk hk'
    simp

theorem Process_batch_follows_documents_witness :
    ∃ batch, uploadedBatches (Process sampleEnv ⟨[docAmount, docLocation]⟩ sampleState) = [batch] ∧
      batch.length = 2 ∧
      ∀ (k : Nat) (hk : k < batch.length) (hk' : k < 2),
        batch[k] = convert sampleEnv sampleState [docAmount, docLocation][k] :=
  Process_batch_follows_documents sampleEnv ⟨[docAmount, docLocation]⟩ sampleState rfl
    (by decide)


/-! ## Theorems about `sort.SliceStable` -/

section SortProofs

variable {α : Type} [Inhabited α]

theorem length_Swap (data : List α) (i j : Nat) : (Swap data i j).length = data.length := by
  simp [Swap]

theorem elem_Swap (data : List α) (i j k : Nat) (hi : i < data.length) (hj : j < data.length) :
    elem (Swap data i j) k =
      if k = j then elem data i else if k = i then elem data j else elem data k := by
  unfold Swap elem
  simp only [List.getD_eq_getElem?_getD, List.getElem?_set, List.length_set]
  by_cases h1 : j = k
  · subst h1
    simp [hj]
  · by_cases h2 : i = k
    · subst h2
      simp [h1, hi, Ne.symm h1]
    · simp [h1, h2, Ne.symm h1, Ne.symm h2]

theorem elem_Swap_eq_swap (data : List α) (i j k : Nat) (hi : i < data.length)
    (hj : j < data.length) : elem (Swap data i j) k = elem data (Equiv.swap i j k) := by
  rw [elem_Swap data i j k hi hj, Equiv.swap_apply_def]
  by_cases h1 : k = j
  · subst h1
    by_cases h2 : k = i
    · subst h2
      simp
    · simp [h2]
  · by_cases h2 : k = i
    · subst h2
      simp [h1]
    · simp [h1, h2]

theorem PermOn.refl (data : List α) (a b : Nat) : PermOn data data a b :=
  ⟨rfl, Equiv.refl Nat, fun _ _ => rfl, fun _ => rfl⟩

theorem PermOn.trans {d₁ d₂ d₃ : List α} {a b : Nat} (h₁ : PermOn d₁ d₂ a b)
    (h₂ : PermOn d₂ d₃ a b) : PermOn d₁ d₃ a b := by
  obtain ⟨l₁, σ₁, f₁, e₁⟩ := h₁
  obtain ⟨l₂, σ₂, f₂, e₂⟩ := h₂
  refine ⟨l₂.trans l₁, σ₂.trans σ₁, ?_, ?_⟩
  · intro k hk
    simp [f₂ k hk, f₁ k hk]
  · intro k
    simp [e₂ k, e₁ (σ₂ k)]

theorem PermOn.mono {d₁ d₂ : List α} {a b a' b' : Nat} (h : PermOn d₁ d₂ a b) (ha : a' ≤ a)
    (hb : b ≤ b') : PermOn d₁ d₂ a' b' := by
  obtain ⟨l, σ, f, e⟩ := h
  exact ⟨l, σ, fun k hk => f k (by omega), e⟩

theorem PermOn.length_eq {d₁ d₂ : List α} {a b : Nat} (h : PermOn d₁ d₂ a b) :
    d₂.length = d₁.length := h.1

theorem PermOn.outside {d₁ d₂ : List α} {a b : Nat} (h : PermOn d₁ d₂ a b) (k : Nat)
    (hk : k < a ∨ b ≤ k) : elem d₂ k = elem d₁ k := by
  obtain ⟨_, σ, f, e⟩ := h
  rw [e k, f k hk]

theorem PermOn.inside {d₁ d₂ : List α} {a b : Nat} (h : PermOn d₁ d₂ a b) (k : Nat)
    (hk : a ≤ k ∧ k < b) : ∃ k', (a ≤ k' ∧ k' < b) ∧ elem d₂ k = elem d₁ k' := by
  obtain ⟨_, σ, f, e⟩ := h
  refine ⟨σ k, ?_, e k⟩
  by_contra hout
  have hfix : σ (σ k) = σ k := f (σ k) (by omega)
  have : σ k = k := σ.injective hfix
  omega

theorem PermOn.Swap (data : List α) (a b i j : Nat) (hi : a ≤ i ∧ i < b) (hj : a ≤ j ∧ j < b)
    (hb : b ≤ data.length) : PermOn data (Swap data i j) a b := by
  refine ⟨length_Swap data i j, Equiv.swap i j, ?_, ?_⟩
  · intro k hk
    exact Equiv.swap_apply_of_ne_of_ne (by omega) (by omega)
  · intro k
    exact elem_Swap_eq_swap data i j k (by omega) (by omega)

/-- A rearrangement within `lo ≤ k < hi` keeps a relation between that section and another
section that is left untouched. -/
theorem PermOn.sorted_outside {le : α → α → Prop} {d₁ d₂ : List α} {a b lo hi : Nat}
    (h : PermOn d₁ d₂ a b) (hs : SortedOn le d₁ lo hi) (hd : hi ≤ a ∨ b ≤ lo) :
    SortedOn le d₂ lo hi := by
  intro i j hi' hij hj
  rw [h.outside i (by omega), h.outside j (by omega)]
  exact hs i j hi' hij hj

end SortProofs


section SortProofs

variable {α : Type} [Inhabited α]

theorem insertionSortInner_spec {less : α → α → Bool} {le : α → α → Prop} (hc : Compat less le)
    (a i : Nat) : ∀ (j : Nat) (data : List α), a ≤ j → j ≤ i → i < data.length →
      (∀ p q, a ≤ p → p < q → q ≤ i → p ≠ j → q ≠ j → le (elem data p) (elem data q)) →
      (∀ q, j < q → q ≤ i → le (elem data j) (elem data q)) →
      SortedOn le (insertionSortInner less a j data) a (i + 1) ∧
        PermOn data (insertionSortInner less a j data) a (i + 1) := by
  intro j
  induction j with
  | zero =>
    intro data ha _ _ H1 H2
    refine ⟨?_, PermOn.refl _ _ _⟩
    intro p q hp hpq hq
    simp only [insertionSortInner]
    by_cases hp0 : p = 0
    · subst hp0
      exact H2 q hpq (by omega)
    · exact H1 p q hp hpq (by omega) hp0 (by omega)
  | succ j ih =>
    intro data ha hji hlen H1 H2
    simp only [insertionSortInner]
    by_cases hcond : (decide (j + 1 > a) && Less less data (j + 1) j) = true
    · rw [if_pos hcond]
      simp only [Bool.and_eq_true, decide_eq_true_eq] at hcond
      obtain ⟨haj, hless⟩ := hcond
      have hle : le (elem data (j + 1)) (elem data j) := hc.of_less _ _ hless
      have hsw : ∀ k, elem (Swap data (j + 1) j) k =
          if k = j then elem data (j + 1) else if k = j + 1 then elem data j else elem data k :=
        fun k => elem_Swap data (j + 1) j k (by omega) (by omega)
      have hperm : PermOn data (Swap data (j + 1) j) a (i + 1) :=
        PermOn.Swap data a (i + 1) (j + 1) j (by omega) (by omega) (by omega)
      have := ih (Swap data (j + 1) j) (by omega) (by omega) (by rw [length_Swap]; exact hlen)
        (by
          intro p q hp hpq hq hpj hqj
          rw [hsw p, hsw q]
          simp only [hpj, hqj, if_false]
          by_cases hp1 : p = j + 1
          · have hq1 : q ≠ j + 1 := by omega
            simp only [hp1, hq1, if_true, if_false]
            exact H1 j q (by omega) (by omega) hq (by omega) hq1
          · by_cases hq1 : q = j + 1
            · simp only [hp1, hq1, if_true, if_false]
              exact H1 p j hp (by omega) (by omega) hp1 (by omega)
            · simp only [hp1, hq1, if_false]
              exact H1 p q hp hpq hq hp1 hq1)
        (by
          intro q hjq hq
          rw [hsw j, hsw q]
          have hqj : q ≠ j := by omega
          simp only [hqj, if_true, if_false]
          by_cases hq1 : q = j + 1
          · simp only [hq1, if_true]
            exact hle
          · simp only [hq1, if_false]
            exact H2 q (by omega) hq)
      exact ⟨this.1, hperm.trans this.2⟩
    · rw [if_neg hcond]
      refine ⟨?_, PermOn.refl _ _ _⟩
      intro p q hp hpq hq
      by_cases hp1 : p = j + 1
      · subst hp1
        exact H2 q hpq (by omega)
      · by_cases hq1 : q = j + 1
        · subst hq1
          have hnl : Less less data (j + 1) j = false := by
            have : decide (j + 1 > a) = true := by
              simp only [decide_eq_true_eq]; omega
            simpa [this] using hcond
          have hle : le (elem data j) (elem data (j + 1)) := hc.of_not_less _ _ hnl
          by_cases hpj : p = j
          · subst hpj; exact hle
          · exact hc.trans _ _ _
              (H1 p j hp (by omega) (by omega) hp1 (by omega)) hle
        · exact H1 p q hp hpq (by omega) hp1 hq1

theorem insertionSortOuter_spec {less : α → α → Bool} {le : α → α → Prop} (hc : Compat less le)
    (a b : Nat) : ∀ (fuel i : Nat) (data : List α), a < i → i ≤ b → b - i ≤ fuel →
      b ≤ data.length → SortedOn le data a i →
      SortedOn le (insertionSortOuter less a b fuel i data) a b ∧
        PermOn data (insertionSortOuter less a b fuel i data) a b := by
  intro fuel
  induction fuel with
  | zero =>
    intro i data _ hib hf _ hs
    have : i = b := by omega
    subst this
    exact ⟨hs, PermOn.refl _ _ _⟩
  | succ fuel ih =>
    intro i data hai hib hf hlen hs
    simp only [insertionSortOuter]
    by_cases hlt : i < b
    · rw [if_pos hlt]
      have h1 := insertionSortInner_spec hc a i i data (by omega) (le_refl i) (by omega)
        (fun p q hp hpq hq _ hqi => hs p q hp hpq (by omega))
        (fun q h1 h2 => absurd h1 (by omega))
      have h2 := ih (i + 1) (insertionSortInner less a i data) (by omega) (by omega) (by omega)
        (by rw [h1.2.length_eq]; exact hlen) h1.1
      exact ⟨h2.1, (h1.2.mono (le_refl a) (by omega)).trans h2.2⟩
    · rw [if_neg hlt]
      have : i = b := by omega
      subst this
      exact ⟨hs, PermOn.refl _ _ _⟩

theorem insertionSort_spec {less : α → α → Bool} {le : α → α → Prop} (hc : Compat less le)
    (data : List α) (a b : Nat) (hlen : b ≤ data.length) :
    SortedOn le (insertionSort less data a b) a b ∧
      PermOn data (insertionSort less data a b) a b := by
  unfold insertionSort
  by_cases hab : a < b
  · exact insertionSortOuter_spec hc a b (b - a) (a + 1) data (by omega) (by omega) (by omega)
      hlen (fun i j hi hij hj => absurd hij (by omega))
  · have : b - a = 0 := by omega
    rw [this]
    exact ⟨fun i j hi hij hj => absurd hij (by omega), PermOn.refl _ _ _⟩

end SortProofs

section SortProofs

variable {α : Type} [Inhabited α]

theorem swapRangeLoop_spec (a b : Nat) : ∀ (fuel i : Nat) (data : List α),
    a + i + fuel ≤ b → b + i + fuel ≤ data.length →
    PermOn data (swapRangeLoop a b fuel i data) (a + i) (b + i + fuel) ∧
      ∀ k, elem (swapRangeLoop a b fuel i data) k =
        if a + i ≤ k ∧ k < a + i + fuel then elem data (k - a + b)
        else if b + i ≤ k ∧ k < b + i + fuel then elem data (k - b + a)
        else elem data k := by
  intro fuel
  induction fuel with
  | zero =>
    intro i data _ _
    refine ⟨PermOn.refl _ _ _, fun k => ?_⟩
    simp only [swapRangeLoop]
    split_ifs <;> first | rfl | omega
  | succ fuel ih =>
    intro i data h1 h2
    simp only [swapRangeLoop]
    have hsw : ∀ k, elem (Swap data (a + i) (b + i)) k =
        if k = b + i then elem data (a + i) else if k = a + i then elem data (b + i)
        else elem data k :=
      fun k => elem_Swap data (a + i) (b + i) k (by omega) (by omega)
    have hp : PermOn data (Swap data (a + i) (b + i)) (a + i) (b + i + (fuel + 1)) :=
      PermOn.Swap data _ _ _ _ (by omega) (by omega) (by omega)
    have := ih (i + 1) (Swap data (a + i) (b + i)) (by omega) (by rw [length_Swap]; omega)
    refine ⟨hp.trans (this.1.mono (by omega) (by omega)), fun k => ?_⟩
    rw [this.2 k]
    simp only [hsw]
    split_ifs <;> first | rfl | omega | (congr 1; omega)

theorem swapRange_spec (data : List α) (a b n : Nat) (h1 : a + n ≤ b)
    (h2 : b + n ≤ data.length) :
    PermOn data (swapRange data a b n) a (b + n) ∧
      ∀ k, elem (swapRange data a b n) k =
        if a ≤ k ∧ k < a + n then elem data (k - a + b)
        else if b ≤ k ∧ k < b + n then elem data (k - b + a)
        else elem data k := by
  have := swapRangeLoop_spec a b n 0 data (by omega) (by omega)
  simpa [swapRange] using this

theorem rotateLoop_spec (m : Nat) : ∀ (fuel i j : Nat) (data : List α),
    0 < i → 0 < j → i ≤ m → m + j ≤ data.length → i + j ≤ fuel →
    PermOn data (rotateLoop m fuel i j data) (m - i) (m + j) ∧
      ∀ k, elem (rotateLoop m fuel i j data) k =
        if m - i ≤ k ∧ k < m - i + j then elem data (k + i)
        else if m - i + j ≤ k ∧ k < m + j then elem data (k - j)
        else elem data k := by
  intro fuel
  induction fuel with
  | zero =>
    intro i j data hi hj _ _ hf
    omega
  | succ fuel ih =>
    intro i j data hi hj him hlen hf
    simp only [rotateLoop]
    by_cases hij : i = j
    · subst hij
      simp only [ne_eq, not_true_eq_false, if_false]
      have := swapRange_spec data (m - i) m i (by omega) (by omega)
      refine ⟨this.1, fun k => ?_⟩
      rw [this.2 k]
      split_ifs <;> first | rfl | omega | (congr 1; omega)
    · simp only [ne_eq, hij, not_false_eq_true, if_true]
      by_cases hgt : i > j
      · simp only [hgt, if_true]
        have h1 := swapRange_spec data (m - i) m j (by omega) (by omega)
        have h2 := ih (i - j) j (swapRange data (m - i) m j) (by omega) hj (by omega)
          (by rw [h1.1.length_eq]; exact hlen) (by omega)
        refine ⟨(h1.1.mono (le_refl _) (le_refl _)).trans (h2.1.mono (by omega) (le_refl _)),
          fun k => ?_⟩
        rw [h2.2 k]
        simp only [h1.2]
        split_ifs <;> first | rfl | omega | (congr 1; omega)
      · simp only [hgt, if_false]
        have h1 := swapRange_spec data (m - i) (m + j - i) i (by omega) (by omega)
        have h2 := ih i (j - i) (swapRange data (m - i) (m + j - i) i) hi (by omega) him
          (by rw [h1.1.length_eq]; omega) (by omega)
        refine ⟨(h1.1.mono (le_refl _) (by omega)).trans (h2.1.mono (le_refl _) (by omega)),
          fun k => ?_⟩
        rw [h2.2 k]
        simp only [h1.2]
        split_ifs <;> first | rfl | omega | (congr 1; omega)

theorem rotate_spec (data : List α) (a m b : Nat) (ham : a < m) (hmb : m < b)
    (hlen : b ≤ data.length) :
    PermOn data (rotate data a m b) a b ∧
      ∀ k, elem (rotate data a m b) k =
        if a ≤ k ∧ k < a + (b - m) then elem data (k + (m - a))
        else if a + (b - m) ≤ k ∧ k < b then elem data (k - (b - m))
        else elem data k := by
  have := rotateLoop_spec m (m - a + (b - m) + 1) (m - a) (b - m) data (by omega) (by omega)
    (by omega) (by omega) (by omega)
  unfold rotate
  refine ⟨this.1.mono (by omega) (by omega), fun k => ?_⟩
  rw [this.2 k]
  split_ifs <;> first | rfl | omega

end SortProofs

section SortProofs

variable {α : Type} [Inhabited α]

omit [Inhabited α] in
theorem Compat.le_self {less : α → α → Bool} {le : α → α → Prop} (hc : Compat less le) (x : α) :
    le x x := by
  cases h : less x x
  · exact hc.of_not_less x x h
  · exact hc.of_less x x h

theorem SortedOn.le_of_le {less : α → α → Bool} {le : α → α → Prop} (hc : Compat less le)
    {data : List α} {a b : Nat} (hs : SortedOn le data a b) (i j : Nat) (hi : a ≤ i)
    (hij : i ≤ j) (hj : j < b) : le (elem data i) (elem data j) := by
  rcases Nat.eq_or_lt_of_le hij with h | h
  · subst h; exact hc.le_self _
  · exact hs i j hi h hj

theorem searchAfter_spec {less : α → α → Bool} {le : α → α → Prop} (hc : Compat less le)
    (data : List α) (a lo hi : Nat) (hs : SortedOn le data lo hi) :
    ∀ (fuel i j : Nat), lo ≤ i → i ≤ j → j ≤ hi → j - i ≤ fuel →
      (∀ k, lo ≤ k → k < i → le (elem data k) (elem data a)) →
      (∀ k, j ≤ k → k < hi → le (elem data a) (elem data k)) →
      i ≤ searchAfter less data a fuel i j ∧ searchAfter less data a fuel i j ≤ j ∧
      (∀ k, lo ≤ k → k < searchAfter less data a fuel i j → le (elem data k) (elem data a)) ∧
      (∀ k, searchAfter less data a fuel i j ≤ k → k < hi → le (elem data a) (elem data k)) := by
  intro fuel
  induction fuel with
  | zero =>
    intro i j _ hij _ hf hL hR
    have : i = j := by omega
    subst this
    exact ⟨le_refl _, le_refl _, hL, hR⟩
  | succ fuel ih =>
    intro i j hlo hij hjhi hf hL hR
    simp only [searchAfter]
    by_cases hlt : i < j
    · simp only [hlt, if_true]
      have hh1 : i ≤ (i + j) / 2 := by omega
      have hh2 : (i + j) / 2 < j := by omega
      by_cases hl : Less less data ((i + j) / 2) a = true
      · simp only [hl, if_true]
        have hle := hc.of_less _ _ hl
        have := ih ((i + j) / 2 + 1) j (by omega) (by omega) hjhi (by omega)
          (fun k hk1 hk2 => hc.trans _ _ _
            (hs.le_of_le hc k ((i + j) / 2) hk1 (by omega) (by omega)) hle) hR
        exact ⟨by omega, this.2.1, this.2.2⟩
      · have hl' : Less less data ((i + j) / 2) a = false := by simpa using hl
        simp only [hl', Bool.false_eq_true, if_false]
        have hle := hc.of_not_less _ _ hl'
        have := ih i ((i + j) / 2) hlo hh1 (by omega) (by omega) hL
          (fun k hk1 hk2 => hc.trans _ _ _ hle
            (hs.le_of_le hc ((i + j) / 2) k (by omega) hk1 hk2))
        exact ⟨this.1, by omega, this.2.2⟩
    · have : i = j := by omega
      subst this
      simp only [lt_irrefl, if_false]
      exact ⟨le_refl _, le_refl _, hL, hR⟩

theorem searchBefore_spec {less : α → α → Bool} {le : α → α → Prop} (hc : Compat less le)
    (data : List α) (m lo hi : Nat) (hs : SortedOn le data lo hi) :
    ∀ (fuel i j : Nat), lo ≤ i → i ≤ j → j ≤ hi → j - i ≤ fuel →
      (∀ k, lo ≤ k → k < i → le (elem data k) (elem data m)) →
      (∀ k, j ≤ k → k < hi → le (elem data m) (elem data k)) →
      i ≤ searchBefore less data m fuel i j ∧ searchBefore less data m fuel i j ≤ j ∧
      (∀ k, lo ≤ k → k < searchBefore less data m fuel i j → le (elem data k) (elem data m)) ∧
      (∀ k, searchBefore less data m fuel i j ≤ k → k < hi → le (elem data m) (elem data k)) := by
  intro fuel
  induction fuel with
  | zero =>
    intro i j _ hij _ hf hL hR
    have : i = j := by omega
    subst this
    exact ⟨le_refl _, le_refl _, hL, hR⟩
  | succ fuel ih =>
    intro i j hlo hij hjhi hf hL hR
    simp only [searchBefore]
    by_cases hlt : i < j
    · simp only [hlt, if_true]
      have hh1 : i ≤ (i + j) / 2 := by omega
      have hh2 : (i + j) / 2 < j := by omega
      by_cases hl : Less less data m ((i + j) / 2) = true
      · simp only [hl, Bool.not_true, Bool.false_eq_true, if_false]
        have hle := hc.of_less _ _ hl
        have := ih i ((i + j) / 2) hlo hh1 (by omega) (by omega) hL
          (fun k hk1 hk2 => hc.trans _ _ _ hle
            (hs.le_of_le hc ((i + j) / 2) k (by omega) hk1 hk2))
        exact ⟨this.1, by omega, this.2.2⟩
      · have hl' : Less less data m ((i + j) / 2) = false := by simpa using hl
        simp only [hl', Bool.not_false, if_true]
        have hle := hc.of_not_less _ _ hl'
        have := ih ((i + j) / 2 + 1) j (by omega) (by omega) hjhi (by omega)
          (fun k hk1 hk2 => hc.trans _ _ _
            (hs.le_of_le hc k ((i + j) / 2) hk1 (by omega) (by omega)) hle) hR
        exact ⟨by omega, this.2.1, this.2.2⟩
    · have : i = j := by omega
      subst this
      simp only [lt_irrefl, if_false]
      exact ⟨le_refl _, le_refl _, hL, hR⟩

theorem searchSplit_spec {less : α → α → Bool} {le : α → α → Prop} (hc : Compat less le)
    (data : List α) (p s₀ r₀ : Nat) :
    ∀ (fuel start r : Nat), s₀ ≤ start → start ≤ r → r ≤ r₀ → r - start ≤ fuel →
      (start = s₀ ∨ le (elem data (start - 1)) (elem data (p - (start - 1)))) →
      (r = r₀ ∨ le (elem data (p - r)) (elem data r)) →
      s₀ ≤ searchSplit less data p fuel start r ∧ searchSplit less data p fuel start r ≤ r₀ ∧
      (searchSplit less data p fuel start r = s₀ ∨
        le (elem data (searchSplit less data p fuel start r - 1))
          (elem data (p - (searchSplit less data p fuel start r - 1)))) ∧
      (searchSplit less data p fuel start r = r₀ ∨
        le (elem data (p - searchSplit less data p fuel start r))
          (elem data (searchSplit less data p fuel start r))) := by
  intro fuel
  induction fuel with
  | zero =>
    intro start r h1 h2 h3 hf hL hR
    have : start = r := by omega
    subst this
    exact ⟨h1, h3, hL, hR⟩
  | succ fuel ih =>
    intro start r h1 h2 h3 hf hL hR
    simp only [searchSplit]
    by_cases hlt : start < r
    · simp only [hlt, if_true]
      have hh1 : start ≤ (start + r) / 2 := by omega
      have hh2 : (start + r) / 2 < r := by omega
      by_cases hl : Less less data (p - (start + r) / 2) ((start + r) / 2) = true
      · simp only [hl, Bool.not_true, Bool.false_eq_true, if_false]
        exact ih start ((start + r) / 2) h1 hh1 (by omega) (by omega) hL
          (Or.inr (hc.of_less _ _ hl))
      · have hl' : Less less data (p - (start + r) / 2) ((start + r) / 2) = false := by
          simpa using hl
        simp only [hl', Bool.not_false, if_true]
        exact ih ((start + r) / 2 + 1) r (by omega) (by omega) h3 (by omega)
          (Or.inr (by simpa using hc.of_not_less _ _ hl')) hR
    · have : start = r := by omega
      subst this
      simp only [lt_irrefl, if_false]
      exact ⟨h1, h3, hL, hR⟩

theorem shiftUp_spec (i : Nat) : ∀ (fuel k : Nat) (data : List α),
    k < i → i ≤ data.length → i - 1 - k ≤ fuel →
    PermOn data (shiftUp i fuel k data) k i ∧
      ∀ q, elem (shiftUp i fuel k data) q =
        if k ≤ q ∧ q < i - 1 then elem data (q + 1)
        else if q = i - 1 then elem data k
        else elem data q := by
  intro fuel
  induction fuel with
  | zero =>
    intro k data hk _ hf
    refine ⟨PermOn.refl _ _ _, fun q => ?_⟩
    simp only [shiftUp]
    have : k = i - 1 := by omega
    split_ifs <;> first | rfl | omega | (congr 1; omega)
  | succ fuel ih =>
    intro k data hk hlen hf
    simp only [shiftUp]
    by_cases hlt : k < i - 1
    · simp only [hlt, if_true]
      have hsw : ∀ q, elem (Swap data k (k + 1)) q =
          if q = k + 1 then elem data k else if q = k then elem data (k + 1) else elem data q :=
        fun q => elem_Swap data k (k + 1) q (by omega) (by omega)
      have hp : PermOn data (Swap data k (k + 1)) k i :=
        PermOn.Swap data _ _ _ _ (by omega) (by omega) hlen
      have := ih (k + 1) (Swap data k (k + 1)) (by omega) (by rw [length_Swap]; exact hlen)
        (by omega)
      refine ⟨hp.trans (this.1.mono (by omega) (le_refl _)), fun q => ?_⟩
      rw [this.2 q]
      simp only [hsw]
      split_ifs <;> first | rfl | omega | (congr 1; omega)
    · simp only [hlt, if_false]
      refine ⟨PermOn.refl _ _ _, fun q => ?_⟩
      have : k = i - 1 := by omega
      split_ifs <;> first | rfl | omega | (congr 1; omega)

theorem shiftDown_spec (i : Nat) : ∀ (k : Nat) (data : List α),
    i ≤ k → k < data.length →
    PermOn data (shiftDown i k data) i (k + 1) ∧
      ∀ q, elem (shiftDown i k data) q =
        if q = i then elem data k
        else if i < q ∧ q ≤ k then elem data (q - 1)
        else elem data q := by
  intro k
  induction k with
  | zero =>
    intro data hi _
    refine ⟨PermOn.refl _ _ _, fun q => ?_⟩
    simp only [shiftDown]
    have : i = 0 := by omega
    split_ifs <;> first | rfl | omega | (congr 1; omega)
  | succ k ih =>
    intro data hi hlen
    simp only [shiftDown]
    by_cases hgt : k + 1 > i
    · simp only [hgt, if_true]
      have hsw : ∀ q, elem (Swap data (k + 1) k) q =
          if q = k then elem data (k + 1) else if q = k + 1 then elem data k else elem data q :=
        fun q => elem_Swap data (k + 1) k q (by omega) (by omega)
      have hp : PermOn data (Swap data (k + 1) k) i (k + 1 + 1) :=
        PermOn.Swap data _ _ _ _ (by omega) (by omega) (by omega)
      have := ih (Swap data (k + 1) k) (by omega) (by rw [length_Swap]; omega)
      refine ⟨hp.trans (this.1.mono (le_refl _) (by omega)), fun q => ?_⟩
      rw [this.2 q]
      simp only [hsw]
      split_ifs <;> first | rfl | omega | (congr 1; omega)
    · simp only [hgt, if_false]
      refine ⟨PermOn.refl _ _ _, fun q => ?_⟩
      have : i = k + 1 := by omega
      split_ifs <;> first | rfl | omega | (congr 1; omega)

end SortProofs

section SortProofs

variable {α : Type} [Inhabited α]

/-- The optional `rotate` of the general case of `symMerge`, in closed form. -/
theorem rotate_step (data : List α) (s m e mid : Nat) (hsm : s ≤ m) (hme : m ≤ e)
    (hmid : s + (e - m) = mid) (hlen : e ≤ data.length) :
    PermOn data (if (decide (s < m) && decide (m < e)) = true then rotate data s m e else data)
        s e ∧
      ∀ k, elem (if (decide (s < m) && decide (m < e)) = true then rotate data s m e else data) k =
        if s ≤ k ∧ k < mid then elem data (k + (m - s))
        else if mid ≤ k ∧ k < e then elem data (k - (e - m))
        else elem data k := by
  by_cases hcond : (decide (s < m) && decide (m < e)) = true
  · rw [if_pos hcond]
    simp only [Bool.and_eq_true, decide_eq_true_eq] at hcond
    have := rotate_spec data s m e hcond.1 hcond.2 hlen
    refine ⟨this.1, fun k => ?_⟩
    rw [this.2 k, hmid]
  · rw [if_neg hcond]
    simp only [Bool.and_eq_true, decide_eq_true_eq, not_and_or, not_lt] at hcond
    refine ⟨PermOn.refl _ _ _, fun k => ?_⟩
    split_ifs <;> first | rfl | omega | (congr 1; omega)

/-- Index arithmetic of the general case of `symMerge`: the search interval lies inside the
runs, and the split point `s` with `e = n - s` cuts both runs. -/
theorem symMerge_indices (a m b mid n s₀ r₀ p s e : Nat) (ham : a < m) (hmb : m < b)
    (hmid : mid = (a + b) / 2) (hn : n = mid + m)
    (hs₀ : s₀ = if m > mid then n - b else a) (hr₀ : r₀ = if m > mid then mid else m)
    (hp : p = n - 1) (he : e = n - s) (h1 : s₀ ≤ s) (h2 : s ≤ r₀) :
    (a ≤ s ∧ s ≤ m ∧ s ≤ mid ∧ m ≤ e ∧ mid ≤ e ∧ e ≤ b ∧ s + (e - m) = mid ∧ a < mid ∧ mid < b) ∧
      (s = s₀ → s = a ∨ e = b) ∧ (s = r₀ → s = m ∧ e = mid ∨ s = mid ∧ e = m) ∧
      (s ≠ s₀ → p - (s - 1) = e) ∧ p - s = e - 1 := by
  by_cases hm : m > mid
  · simp only [hm, if_true] at hs₀ hr₀
    subst hs₀ hr₀ hp he hn
    refine ⟨by omega, by omega, by omega, by omega, by omega⟩
  · simp only [hm, if_false] at hs₀ hr₀
    subst hs₀ hr₀ hp he hn
    refine ⟨by omega, by omega, by omega, by omega, by omega⟩

theorem symMerge_search_interval (a m b mid n s₀ r₀ : Nat) (ham : a < m) (hmb : m < b)
    (hmid : mid = (a + b) / 2) (hn : n = mid + m)
    (hs₀ : s₀ = if m > mid then n - b else a) (hr₀ : r₀ = if m > mid then mid else m) :
    s₀ ≤ r₀ := by
  by_cases hm : m > mid
  · simp only [hm, if_true] at hs₀ hr₀
    omega
  · simp only [hm, if_false] at hs₀ hr₀
    omega

/-- After the rotation the four pieces are sorted and everything left of `mid` is `le`
everything from `mid` on. -/
theorem symMerge_after_rotate {less : α → α → Bool} {le : α → α → Prop} (hc : Compat less le)
    (data data1 : List α) (a m b mid s e : Nat)
    (hs1 : SortedOn le data a m) (hs2 : SortedOn le data m b)
    (hb : a ≤ s ∧ s ≤ m ∧ s ≤ mid ∧ m ≤ e ∧ mid ≤ e ∧ e ≤ b ∧ s + (e - m) = mid ∧ a < mid ∧
      mid < b)
    (hL : s = a ∨ e = b ∨ le (elem data (s - 1)) (elem data e))
    (hR : (s = m ∧ e = mid) ∨ (s = mid ∧ e = m) ∨ le (elem data (e - 1)) (elem data s))
    (hv1 : ∀ k, elem data1 k =
      if s ≤ k ∧ k < mid then elem data (k + (m - s))
      else if mid ≤ k ∧ k < e then elem data (k - (e - m))
      else elem data k) :
    SortedOn le data1 a s ∧ SortedOn le data1 s mid ∧ SortedOn le data1 mid e ∧
      SortedOn le data1 e b ∧
      ∀ i j, a ≤ i → i < mid → mid ≤ j → j < b → le (elem data1 i) (elem data1 j) := by
  obtain ⟨has, hsm, hsmid, hme, hmide, heb, hsum, hamid, hmidb⟩ := hb
  have vlo : ∀ k, k < s → elem data1 k = elem data k := fun k hk => by
    rw [hv1 k, if_neg (fun h => absurd h.1 (by omega)), if_neg (fun h => absurd h.1 (by omega))]
  have vleft : ∀ k, s ≤ k → k < mid → elem data1 k = elem data (k + (m - s)) := fun k h1 h2 => by
    rw [hv1 k, if_pos ⟨h1, h2⟩]
  have vright : ∀ k, mid ≤ k → k < e → elem data1 k = elem data (k - (e - m)) :=
    fun k h1 h2 => by
      rw [hv1 k, if_neg (fun h => absurd h.2 (by omega)), if_pos ⟨h1, h2⟩]
  have vhi : ∀ k, e ≤ k → elem data1 k = elem data k := fun k hk => by
    rw [hv1 k, if_neg (fun h => absurd h.2 (by omega)), if_neg (fun h => absurd h.2 (by omega))]
  refine ⟨?_, ?_, ?_, ?_, ?_⟩
  · intro i j hi hij hj
    rw [vlo i (by omega), vlo j hj]
    exact hs1 i j hi hij (by omega)
  · intro i j hi hij hj
    rw [vleft i hi (by omega), vleft j (by omega) hj]
    exact hs2 _ _ (by omega) (by omega) (by omega)
  · intro i j hi hij hj
    rw [vright i hi (by omega), vright j (by omega) hj]
    exact hs1 _ _ (by omega) (by omega) (by omega)
  · intro i j hi hij hj
    rw [vhi i hi, vhi j (by omega)]
    exact hs2 i j (by omega) hij hj
  · intro i j hi him hmj hjb
    by_cases his : i < s
    · rw [vlo i his]
      by_cases hje : j < e
      · rw [vright j hmj hje]
        exact hs1 _ _ hi (by omega) (by omega)
      · rw [vhi j (by omega)]
        rcases hL with hL | hL | hL
        · omega
        · omega
        · exact hc.trans _ _ _ (hs1.le_of_le hc i (s - 1) hi (by omega) (by omega))
            (hc.trans _ _ _ hL (hs2.le_of_le hc e j hme (by omega) hjb))
    · rw [vleft i (by omega) him]
      by_cases hje : j < e
      · rw [vright j hmj hje]
        rcases hR with hR | hR | hR
        · omega
        · omega
        · exact hc.trans _ _ _
            (hs2.le_of_le hc (i + (m - s)) (e - 1) (by omega) (by omega) (by omega))
            (hc.trans _ _ _ hR (hs1.le_of_le hc s (j - (e - m)) has (by omega) (by omega)))
      · rw [vhi j (by omega)]
        exact hs2 _ _ (by omega) (by omega) hjb

/-- Two halves that are sorted, with the left half `le` the right half before they were
rearranged, form a sorted whole. -/
theorem symMerge_join {le : α → α → Prop} (data1 data2 data3 : List α) (a mid b : Nat)
    (C : ∀ i j, a ≤ i → i < mid → mid ≤ j → j < b → le (elem data1 i) (elem data1 j))
    (L1 : SortedOn le data2 a mid) (L2 : PermOn data1 data2 a mid)
    (R1 : SortedOn le data3 mid b) (R2 : PermOn data2 data3 mid b) :
    SortedOn le data3 a b := by
  intro i j hi hij hj
  by_cases hjm : j < mid
  · rw [R2.outside i (by omega), R2.outside j (by omega)]
    exact L1 i j hi hij hjm
  · by_cases him : mid ≤ i
    · exact R1 i j him hij hj
    · obtain ⟨j', hj', ej⟩ := R2.inside j ⟨by omega, hj⟩
      rw [R2.outside i (by omega), ej, L2.outside j' (by omega)]
      obtain ⟨i', hi', ei⟩ := L2.inside i ⟨hi, by omega⟩
      rw [ei]
      exact C i' j' hi'.1 hi'.2 hj'.1 hj'.2

/-- A recursive call of `symMerge` on `lo`, `cut`, `hi`, guarded by `lo < cut && cut < hi`,
leaves the section sorted when its two pieces were. -/
theorem symMerge_guarded {le : α → α → Prop} (fuel : Nat)
    (rec_ : List α → Nat → Nat → Nat → List α)
    (hrec : ∀ (data : List α) (a m b : Nat), a < m → m < b → b ≤ data.length → b - a ≤ fuel →
      SortedOn le data a m → SortedOn le data m b →
      SortedOn le (rec_ data a m b) a b ∧ PermOn data (rec_ data a m b) a b)
    (data : List α) (lo cut hi : Nat) (h1 : lo ≤ cut) (h2 : cut ≤ hi) (hlen : hi ≤ data.length)
    (hf : hi - lo ≤ fuel) (P1 : SortedOn le data lo cut) (P2 : SortedOn le data cut hi) :
    SortedOn le (if (decide (lo < cut) && decide (cut < hi)) = true then rec_ data lo cut hi
        else data) lo hi ∧
      PermOn data (if (decide (lo < cut) && decide (cut < hi)) = true then rec_ data lo cut hi
        else data) lo hi := by
  by_cases hcond : (decide (lo < cut) && decide (cut < hi)) = true
  · rw [if_pos hcond]
    simp only [Bool.and_eq_true, decide_eq_true_eq] at hcond
    exact hrec data lo cut hi hcond.1 hcond.2 hlen hf P1 P2
  · rw [if_neg hcond]
    simp only [Bool.and_eq_true, decide_eq_true_eq, not_and_or, not_lt] at hcond
    refine ⟨?_, PermOn.refl _ _ _⟩
    intro i j hi' hij hj
    rcases hcond with h | h
    · exact P2 i j (by omega) hij hj
    · exact P1 i j hi' hij (by omega)

theorem symMerge_general {less : α → α → Bool} {le : α → α → Prop} (hc : Compat less le)
    (fuel : Nat) (rec_ : List α → Nat → Nat → Nat → List α)
    (hrec : ∀ (data : List α) (a m b : Nat), a < m → m < b → b ≤ data.length → b - a ≤ fuel →
      SortedOn le data a m → SortedOn le data m b →
      SortedOn le (rec_ data a m b) a b ∧ PermOn data (rec_ data a m b) a b)
    (data : List α) (a m b : Nat) (ham : a < m) (hmb : m < b) (hlen : b ≤ data.length)
    (hf : b - a ≤ fuel + 1) (hs1 : SortedOn le data a m) (hs2 : SortedOn le data m b)
    (mid n s₀ r₀ p s e : Nat) (hmid : mid = (a + b) / 2) (hn : n = mid + m)
    (hs₀ : s₀ = if m > mid then n - b else a) (hr₀ : r₀ = if m > mid then mid else m)
    (hp : p = n - 1) (hs : s = searchSplit less data p (r₀ - s₀) s₀ r₀) (he : e = n - s)
    (data1 data2 data3 : List α)
    (hd1 : data1 = if (decide (s < m) && decide (m < e)) = true then rotate data s m e else data)
    (hd2 : data2 = if (decide (a < s) && decide (s < mid)) = true then rec_ data1 a s mid
      else data1)
    (hd3 : data3 = if (decide (mid < e) && decide (e < b)) = true then rec_ data2 mid e b
      else data2) :
    SortedOn le data3 a b ∧ PermOn data data3 a b := by
  have hsr := symMerge_search_interval a m b mid n s₀ r₀ ham hmb hmid hn hs₀ hr₀
  obtain ⟨h1, h2, hL, hR⟩ := searchSplit_spec hc data p s₀ r₀ (r₀ - s₀) s₀ r₀ (le_refl _) hsr
    (le_refl _) (le_refl _) (Or.inl rfl) (Or.inl rfl)
  rw [← hs] at h1 h2 hL hR
  obtain ⟨hb, hs₀', hr₀', hpL, hpR⟩ :=
    symMerge_indices a m b mid n s₀ r₀ p s e ham hmb hmid hn hs₀ hr₀ hp he h1 h2
  have hL' : s = a ∨ e = b ∨ le (elem data (s - 1)) (elem data e) := by
    by_cases hs0 : s = s₀
    · rcases hs₀' hs0 with h | h
      · exact Or.inl h
      · exact Or.inr (Or.inl h)
    · rcases hL with h | h
      · exact absurd h hs0
      · rw [hpL hs0] at h
        exact Or.inr (Or.inr h)
  have hR' : (s = m ∧ e = mid) ∨ (s = mid ∧ e = m) ∨ le (elem data (e - 1)) (elem data s) := by
    rcases hR with h | h
    · rcases hr₀' h with h' | h'
      · exact Or.inl h'
      · exact Or.inr (Or.inl h')
    · rw [hpR] at h
      exact Or.inr (Or.inr h)
  clear hL hR hs hs₀ hr₀ hp hmid he hn hsr h1 h2 hpL hpR hs₀' hr₀'
  obtain ⟨hp1, hv1⟩ := rotate_step data s m e mid hb.2.1 hb.2.2.2.1 hb.2.2.2.2.2.2.1
    (le_trans hb.2.2.2.2.2.1 hlen)
  rw [← hd1] at hp1 hv1
  obtain ⟨P1, P2, P3, P4, C⟩ := symMerge_after_rotate hc data data1 a m b mid s e hs1 hs2 hb
    hL' hR' hv1
  obtain ⟨has, hsm, hsmid, hme, hmide, heb, hsum, hamid, hmidb⟩ := hb
  have hlen1 : data1.length = data.length := hp1.length_eq
  obtain ⟨L1, L2⟩ := symMerge_guarded fuel rec_ hrec data1 a s mid has hsmid (by omega)
    (by omega) P1 P2
  rw [← hd2] at L1 L2
  have hlen2 : data2.length = data1.length := L2.length_eq
  obtain ⟨R1, R2⟩ := symMerge_guarded fuel rec_ hrec data2 mid e b hmide heb (by omega)
    (by omega) (L2.sorted_outside P3 (Or.inr (le_refl _)))
    (L2.sorted_outside P4 (Or.inr hmide))
  rw [← hd3] at R1 R2
  exact ⟨symMerge_join data1 data2 data3 a mid b C L1 L2 R1 R2,
    (hp1.mono has heb).trans ((L2.mono (le_refl _) (le_of_lt hmidb)).trans
      (R2.mono (le_of_lt hamid) (le_refl _)))⟩

end SortProofs

section SortProofs

variable {α : Type} [Inhabited α]

theorem symMerge_spec {less : α → α → Bool} {le : α → α → Prop} (hc : Compat less le) :
    ∀ (fuel : Nat) (data : List α) (a m b : Nat), a < m → m < b → b ≤ data.length →
      b - a ≤ fuel → SortedOn le data a m → SortedOn le data m b →
      SortedOn le (symMerge less fuel data a m b) a b ∧
        PermOn data (symMerge less fuel data a m b) a b := by
  intro fuel
  induction fuel with
  | zero =>
    intro data a m b ham hmb _ hf
    omega
  | succ fuel ih =>
    intro data a m b ham hmb hlen hf hs1 hs2
    rw [symMerge]
    by_cases hma : m - a = 1
    · rw [if_pos hma]
      obtain ⟨h1, h2, hL, hR⟩ := searchAfter_spec hc data a m b hs2 (b - m) m b (le_refl _)
        (by omega) (le_refl _) (le_refl _) (fun k hk1 hk2 => absurd hk2 (by omega))
        (fun k hk1 hk2 => absurd hk2 (by omega))
      generalize searchAfter less data a (b - m) m b = i at h1 h2 hL hR
      obtain ⟨hp, hv⟩ := shiftUp_spec i (i - a) a data (by omega) (by omega) (by omega)
      refine ⟨?_, hp.mono (le_refl _) h2⟩
      intro p q hp1 hpq hq
      have hvlo : ∀ k, a ≤ k → k < i - 1 → elem (shiftUp i (i - a) a data) k = elem data (k + 1) :=
        fun k hk1 hk2 => by rw [hv k, if_pos ⟨hk1, hk2⟩]
      have hvmid : elem (shiftUp i (i - a) a data) (i - 1) = elem data a := by
        rw [hv (i - 1), if_neg (fun h => absurd h.2 (lt_irrefl _)), if_pos rfl]
      have hvhi : ∀ k, i ≤ k → elem (shiftUp i (i - a) a data) k = elem data k :=
        fun k hk => by
          rw [hv k, if_neg (fun h => absurd h.2 (by omega)), if_neg (by omega)]
      by_cases hpi : p < i - 1
      · rw [hvlo p hp1 hpi]
        by_cases hqi : q < i - 1
        · rw [hvlo q (by omega) hqi]
          exact hs2 _ _ (by omega) (by omega) (by omega)
        · by_cases hqe : q = i - 1
          · rw [hqe, hvmid]
            exact hL _ (by omega) (by omega)
          · rw [hvhi q (by omega)]
            exact hs2 _ _ (by omega) (by omega) hq
      · by_cases hpe : p = i - 1
        · rw [hpe, hvmid, hvhi q (by omega)]
          exact hR _ (by omega) hq
        · rw [hvhi p (by omega), hvhi q (by omega)]
          exact hs2 _ _ (by omega) hpq hq
    · rw [if_neg hma]
      by_cases hbm : b - m = 1
      · rw [if_pos hbm]
        obtain ⟨h1, h2, hL, hR⟩ := searchBefore_spec hc data m a m hs1 (m - a) a m (le_refl _)
          (by omega) (le_refl _) (le_refl _) (fun k hk1 hk2 => absurd hk2 (by omega))
          (fun k hk1 hk2 => absurd hk2 (by omega))
        generalize searchBefore less data m (m - a) a m = i at h1 h2 hL hR
        obtain ⟨hp, hv⟩ := shiftDown_spec i m data h2 (by omega)
        refine ⟨?_, hp.mono h1 (by omega)⟩
        intro p q hp1 hpq hq
        have hvat : elem (shiftDown i m data) i = elem data m := by
          rw [hv i, if_pos rfl]
        have hvlo : ∀ k, k < i → elem (shiftDown i m data) k = elem data k :=
          fun k hk => by
            rw [hv k, if_neg (by omega), if_neg (fun h => absurd h.1 (by omega))]
        have hvhi : ∀ k, i < k → k ≤ m → elem (shiftDown i m data) k = elem data (k - 1) :=
          fun k hk1 hk2 => by
            rw [hv k, if_neg (by omega), if_pos ⟨hk1, hk2⟩]
        by_cases hpi : p = i
        · rw [hpi, hvat, hvhi q (by omega) (by omega)]
          exact hR _ (by omega) (by omega)
        · by_cases hpl : p < i
          · rw [hvlo p hpl]
            by_cases hqe : q = i
            · rw [hqe, hvat]
              exact hL _ hp1 hpl
            · by_cases hql : i < q
              · rw [hvhi q hql (by omega)]
                exact hs1.le_of_le hc _ _ hp1 (by omega) (by omega)
              · rw [hvlo q (by omega)]
                exact hs1 _ _ hp1 hpq (by omega)
          · rw [hvhi p (by omega) (by omega), hvhi q (by omega) (by omega)]
            exact hs1 _ _ (by omega) (by omega) (by omega)
      · rw [if_neg hbm]
        exact symMerge_general hc fuel (symMerge less fuel) ih data a m b ham hmb hlen hf hs1 hs2
          _ _ _ _ _ _ _ rfl rfl rfl rfl rfl rfl rfl _ _ _ rfl rfl rfl

end SortProofs

section SortProofs

variable {α : Type} [Inhabited α]

/-- Every block of `bs` consecutive positions that starts at a multiple of `bs` is sorted (the
last block is cut at `n`). -/
theorem dvd_gap {d c a : Nat} (hc : d ∣ c) (ha : d ∣ a) (h : c < a) : c + d ≤ a := by
  obtain ⟨x, rfl⟩ := hc
  obtain ⟨y, rfl⟩ := ha
  have hd : 0 < d := by
    rcases Nat.eq_zero_or_pos d with h0 | h0
    · subst h0; simp at h
    · exact h0
  have hxy : x < y := lt_of_mul_lt_mul_left h (Nat.zero_le d)
  calc d * x + d = d * (x + 1) := by ring
    _ ≤ d * y := Nat.mul_le_mul_left d hxy

theorem stableBlocks_spec {less : α → α → Bool} {le : α → α → Prop} (hc : Compat less le)
    (n bs : Nat) (hbs : 0 < bs) : ∀ (fuel : Nat) (data : List α) (a b : Nat),
      b = a + bs → bs ∣ a → a ≤ n → n ≤ data.length → n + 1 - b ≤ fuel →
      (∀ c, bs ∣ c → c < a → SortedOn le data c (c + bs)) →
      (stableBlocks less n bs fuel data a b).2 ≤ n ∧
      n < (stableBlocks less n bs fuel data a b).2 + bs ∧
      bs ∣ (stableBlocks less n bs fuel data a b).2 ∧
      PermOn data (stableBlocks less n bs fuel data a b).1 0 n ∧
      (∀ c, bs ∣ c → c < (stableBlocks less n bs fuel data a b).2 →
        SortedOn le (stableBlocks less n bs fuel data a b).1 c (c + bs)) := by
  intro fuel
  induction fuel with
  | zero =>
    intro data a b hb hda han hlen hf hinv
    simp only [stableBlocks]
    exact ⟨han, by omega, hda, PermOn.refl _ _ _, hinv⟩
  | succ fuel ih =>
    intro data a b hb hda han hlen hf hinv
    simp only [stableBlocks]
    by_cases hbn : b ≤ n
    · rw [if_pos hbn]
      obtain ⟨hs, hp⟩ := insertionSort_spec hc data a b (by omega)
      have := ih (insertionSort less data a b) b (b + bs) rfl
        (by rw [hb]; exact Nat.dvd_add hda (Nat.dvd_refl bs)) hbn
        (by rw [hp.length_eq]; exact hlen) (by omega)
        (by
          intro c hdc hcb
          by_cases hca : c < a
          · have := dvd_gap hdc hda hca
            exact hp.sorted_outside (hinv c hdc hca) (Or.inl this)
          · have hca' : c = a := by
              by_contra hne
              have := dvd_gap hda hdc (by omega)
              omega
            subst hca'
            rw [← hb]
            exact hs)
      exact ⟨this.1, this.2.1, this.2.2.1, (hp.mono (Nat.zero_le _) hbn).trans this.2.2.2.1,
        this.2.2.2.2⟩
    · rw [if_neg hbn]
      exact ⟨han, by omega, hda, PermOn.refl _ _ _, hinv⟩

theorem stablePass_spec {less : α → α → Bool} {le : α → α → Prop} (hc : Compat less le)
    (n bs : Nat) (hbs : 0 < bs) : ∀ (fuel : Nat) (data : List α) (a b : Nat),
      b = a + 2 * bs → 2 * bs ∣ a → a ≤ n → n ≤ data.length → n + 1 - b ≤ fuel →
      (∀ c, 2 * bs ∣ c → c < a → SortedOn le data c (c + 2 * bs)) →
      (∀ c, bs ∣ c → a ≤ c → SortedOn le data c (min (c + bs) n)) →
      (stablePass less n bs fuel data a b).2 ≤ n ∧
      n < (stablePass less n bs fuel data a b).2 + 2 * bs ∧
      2 * bs ∣ (stablePass less n bs fuel data a b).2 ∧
      PermOn data (stablePass less n bs fuel data a b).1 0 n ∧
      (∀ c, 2 * bs ∣ c → c < (stablePass less n bs fuel data a b).2 →
        SortedOn le (stablePass less n bs fuel data a b).1 c (c + 2 * bs)) ∧
      (∀ c, bs ∣ c → (stablePass less n bs fuel data a b).2 ≤ c →
        SortedOn le (stablePass less n bs fuel data a b).1 c (min (c + bs) n)) := by
  intro fuel
  induction fuel with
  | zero =>
    intro data a b hb hda han hlen hf hinv1 hinv2
    simp only [stablePass]
    exact ⟨han, by omega, hda, PermOn.refl _ _ _, hinv1, hinv2⟩
  | succ fuel ih =>
    intro data a b hb hda han hlen hf hinv1 hinv2
    simp only [stablePass]
    have hda1 : bs ∣ a := Dvd.dvd.trans (Dvd.intro_left 2 rfl) hda
    by_cases hbn : b ≤ n
    · rw [if_pos hbn]
      have hb1 := hinv2 a hda1 (le_refl _)
      have hb2 := hinv2 (a + bs) (Nat.dvd_add hda1 (Nat.dvd_refl bs)) (by omega)
      rw [Nat.min_eq_left (by omega)] at hb1 hb2
      have hb2' : SortedOn le data (a + bs) b := by
        have : a + bs + bs = b := by omega
        rw [this] at hb2; exact hb2
      obtain ⟨hs, hp⟩ := symMerge_spec hc (b - a) data a (a + bs) b (by omega) (by omega)
        (by omega) (le_refl _) hb1 hb2'
      have := ih (symMerge less (b - a) data a (a + bs) b) b (b + 2 * bs) rfl
        (by rw [hb]; exact Nat.dvd_add hda (Nat.dvd_refl _)) hbn
        (by rw [hp.length_eq]; exact hlen) (by omega)
        (by
          intro c hdc hcb
          by_cases hca : c < a
          · have := dvd_gap hdc hda hca
            exact hp.sorted_outside (hinv1 c hdc hca) (Or.inl this)
          · have hca' : c = a := by
              by_contra hne
              have := dvd_gap hda hdc (by omega)
              omega
            subst hca'
            rw [← hb]
            exact hs)
        (by
          intro c hdc hbc
          exact hp.sorted_outside (hinv2 c hdc (by omega)) (Or.inr (by omega)))
      exact ⟨this.1, this.2.1, this.2.2.1, (hp.mono (Nat.zero_le _) hbn).trans this.2.2.2.1,
        this.2.2.2.2⟩
    · rw [if_neg hbn]
      exact ⟨han, by omega, hda, PermOn.refl _ _ _, hinv1, hinv2⟩

end SortProofs

section SortProofs

variable {α : Type} [Inhabited α]

theorem stableRounds_spec {less : α → α → Bool} {le : α → α → Prop} (hc : Compat less le)
    (n : Nat) : ∀ (fuel : Nat) (data : List α) (bs : Nat),
      0 < bs → n ≤ data.length → n ≤ bs + fuel →
      (∀ c, bs ∣ c → SortedOn le data c (min (c + bs) n)) →
      SortedOn le (stableRounds less n fuel data bs) 0 n ∧
        PermOn data (stableRounds less n fuel data bs) 0 n := by
  intro fuel
  induction fuel with
  | zero =>
    intro data bs hbs hlen hf hinv
    simp only [stableRounds]
    exact ⟨fun i j hi hij hj => hinv 0 (Nat.dvd_zero bs) i j hi hij (lt_min (by omega) hj),
      PermOn.refl _ _ _⟩
  | succ fuel ih =>
    intro data bs hbs hlen hf hinv
    simp only [stableRounds]
    by_cases hlt : bs < n
    · rw [if_pos hlt]
      obtain ⟨ha1, ha2, ha3, hp1, hi1, hi2⟩ := stablePass_spec hc n bs hbs n data 0 (2 * bs)
        (by omega) (Nat.dvd_zero _) (Nat.zero_le _) hlen (by omega)
        (fun c _ h => absurd h (Nat.not_lt_zero c)) (fun c hd _ => hinv c hd)
      generalize stablePass less n bs n data 0 (2 * bs) = res at ha1 ha2 ha3 hp1 hi1 hi2
      obtain ⟨d1, a⟩ := res
      simp only at ha1 ha2 ha3 hp1 hi1 hi2 ⊢
      have hda1 : bs ∣ a := Dvd.dvd.trans (Dvd.intro_left 2 rfl) ha3
      have hlen1 : n ≤ d1.length := by rw [hp1.length_eq]; exact hlen
      have key : ∃ d2, d2 = (if a + bs < n then symMerge less (n - a) d1 a (a + bs) n else d1) ∧
          PermOn d1 d2 a n ∧ SortedOn le d2 a n := by
        refine ⟨_, rfl, ?_⟩
        by_cases hm : a + bs < n
        · rw [if_pos hm]
          have hb1 : SortedOn le d1 a (a + bs) := fun i j hi hij hj =>
            hi2 a hda1 (le_refl _) i j hi hij (lt_min hj (by omega))
          have hb2 : SortedOn le d1 (a + bs) n := fun i j hi hij hj =>
            hi2 (a + bs) (Nat.dvd_add hda1 (Nat.dvd_refl bs)) (by omega) i j hi hij
              (lt_min (by omega) hj)
          obtain ⟨hs, hp⟩ := symMerge_spec hc (n - a) d1 a (a + bs) n (by omega) hm hlen1
            (le_refl _) hb1 hb2
          exact ⟨hp, hs⟩
        · rw [if_neg hm]
          exact ⟨PermOn.refl _ _ _, fun i j hi hij hj =>
            hi2 a hda1 (le_refl _) i j hi hij (lt_min (by omega) hj)⟩
      obtain ⟨d2, hd2, hp2, hs2⟩ := key
      rw [← hd2]
      have := ih d2 (bs * 2) (by omega) (by rw [hp2.length_eq]; exact hlen1) (by omega)
        (by
          intro c hdc
          rw [Nat.mul_comm] at hdc
          by_cases hca : c < a
          · have hgap := dvd_gap hdc ha3 hca
            have := hp2.sorted_outside (hi1 c hdc hca) (Or.inl (by omega))
            exact fun i j hi hij hj => this i j hi hij (by have := lt_min_iff.mp hj; omega)
          · by_cases hca' : c = a
            · subst hca'
              exact fun i j hi hij hj => hs2 i j hi hij (lt_min_iff.mp hj).2
            · have hgap := dvd_gap ha3 hdc (by omega)
              intro i j hi hij hj
              have : j < n := lt_of_lt_of_le hj (Nat.min_le_right _ _)
              omega)
      exact ⟨this.1, (hp1.trans (hp2.mono (Nat.zero_le _) (le_refl _))).trans this.2⟩
    · rw [if_neg hlt]
      exact ⟨fun i j hi hij hj => hinv 0 (Nat.dvd_zero bs) i j hi hij (lt_min (by omega) hj),
      PermOn.refl _ _ _⟩

theorem stable_spec {less : α → α → Bool} {le : α → α → Prop} (hc : Compat less le)
    (data : List α) (n : Nat) (hlen : n ≤ data.length) :
    SortedOn le (stable less data n) 0 n ∧ PermOn data (stable less data n) 0 n := by
  obtain ⟨ha1, ha2, ha3, hp1, hi1⟩ := stableBlocks_spec hc n 20 (by omega) n data 0 20
    rfl (Nat.dvd_zero _) (Nat.zero_le _) hlen (by omega)
    (fun c _ h => absurd h (Nat.not_lt_zero c))
  simp only [stable]
  generalize stableBlocks less n 20 n data 0 20 = res at ha1 ha2 ha3 hp1 hi1 ⊢
  obtain ⟨d1, a⟩ := res
  simp only at ha1 ha2 ha3 hp1 hi1 ⊢
  have hlen1 : n ≤ d1.length := by rw [hp1.length_eq]; exact hlen
  obtain ⟨hs2, hp2⟩ := insertionSort_spec hc d1 a n hlen1
  have := stableRounds_spec hc n n (insertionSort less d1 a n) 20 (by omega)
    (by rw [hp2.length_eq]; exact hlen1) (by omega)
    (by
      intro c hdc
      by_cases hca : c < a
      · have hgap := dvd_gap hdc ha3 hca
        have := hp2.sorted_outside (hi1 c hdc hca) (Or.inl hgap)
        exact fun i j hi hij hj => this i j hi hij (by have := lt_min_iff.mp hj; omega)
      · by_cases hca' : c = a
        · subst hca'
          exact fun i j hi hij hj => hs2 i j hi hij (lt_min_iff.mp hj).2
        · have hgap := dvd_gap ha3 hdc (by omega)
          intro i j hi hij hj
          have : j < n := lt_of_lt_of_le hj (Nat.min_le_right _ _)
          omega)
  exact ⟨this.1, (hp1.trans (hp2.mono (Nat.zero_le _) (le_refl _))).trans this.2⟩

end SortProofs

section SortProofs

variable {α : Type} [Inhabited α]

theorem elem_eq_getElem (data : List α) (k : Nat) (h : k < data.length) :
    elem data k = data[k] := by
  simp [elem, List.getD_eq_getElem?_getD, h]

theorem pairwise_of_SortedOn {le : α → α → Prop} {data : List α}
    (h : SortedOn le data 0 data.length) : data.Pairwise le := by
  rw [List.pairwise_iff_getElem]
  intro i j hi hj hij
  rw [← elem_eq_getElem data i hi, ← elem_eq_getElem data j hj]
  exact h i j (Nat.zero_le _) hij hj

theorem eq_map_range_elem (data : List α) :
    data = (List.range data.length).map (elem data) := by
  apply List.ext_getElem
  · simp
  · intro i h1 h2
    simp [elem_eq_getElem data i h1]

theorem perm_of_PermOn {data data' : List α} (h : PermOn data data' 0 data.length) :
    data'.Perm data := by
  obtain ⟨hl, σ, hfix, he⟩ := h
  have hin : ∀ k, k < data.length → σ k < data.length := by
    intro k hk
    by_contra hout
    have hfx : σ (σ k) = σ k := hfix (σ k) (Or.inr (by omega))
    have : σ k = k := σ.injective hfx
    omega
  have hin' : ∀ k, k < data.length → σ.symm k < data.length := by
    intro k hk
    by_contra hout
    have hfx : σ (σ.symm k) = σ.symm k := hfix (σ.symm k) (Or.inr (by omega))
    rw [Equiv.apply_symm_apply] at hfx
    omega
  have hrange : ((List.range data.length).map σ).Perm (List.range data.length) := by
    rw [List.perm_ext_iff_of_nodup ((List.nodup_range _).map σ.injective) (List.nodup_range _)]
    intro x
    simp only [List.mem_map, List.mem_range]
    constructor
    · rintro ⟨k, hk, rfl⟩
      exact hin k hk
    · intro hx
      exact ⟨σ.symm x, hin' x hx, Equiv.apply_symm_apply σ x⟩
  have e1 : data' = ((List.range data.length).map σ).map (elem data) := by
    rw [eq_map_range_elem data', hl, List.map_map]
    apply List.map_congr_left
    intro k _
    exact he k
  rw [e1]
  conv_rhs => rw [eq_map_range_elem data]
  exact hrange.map _

/-- Sorting by `sort.SliceStable` with a comparison that agrees with the transitive relation `le` returns a
rearrangement of its input in which earlier elements are `le` later ones. -/
theorem SliceStable_spec {less : α → α → Bool} {le : α → α → Prop} (hc : Compat less le)
    (x : List α) : (SliceStable x less).Pairwise le ∧ (SliceStable x less).Perm x := by
  obtain ⟨hs, hp⟩ := stable_spec hc x x.length (le_refl _)
  unfold SliceStable
  refine ⟨pairwise_of_SortedOn ?_, perm_of_PermOn hp⟩
  rw [hp.length_eq]
  exact hs

end SortProofs

section SortProofs

variable {α : Type} [Inhabited α]

theorem insertionSortInner_never (less : α → α → Bool) (hless : ∀ x y, less x y = false)
    (a j : Nat) (data : List α) : insertionSortInner less a j data = data := by
  cases j with
  | zero => rfl
  | succ j => simp [insertionSortInner, Less, hless]

theorem insertionSortOuter_never (less : α → α → Bool) (hless : ∀ x y, less x y = false)
    (a b : Nat) : ∀ (fuel i : Nat) (data : List α),
      insertionSortOuter less a b fuel i data = data := by
  intro fuel
  induction fuel with
  | zero => intro i data; rfl
  | succ fuel ih =>
    intro i data
    simp only [insertionSortOuter, insertionSortInner_never less hless, ih, ite_self]

theorem insertionSort_never (less : α → α → Bool) (hless : ∀ x y, less x y = false)
    (data : List α) (a b : Nat) : insertionSort less data a b = data :=
  insertionSortOuter_never less hless a b _ _ _

theorem searchAfter_never (less : α → α → Bool) (hless : ∀ x y, less x y = false)
    (data : List α) (a : Nat) : ∀ (fuel i j : Nat), searchAfter less data a fuel i j = i := by
  intro fuel
  induction fuel with
  | zero => intro i j; rfl
  | succ fuel ih =>
    intro i j
    simp only [searchAfter, Less, hless, Bool.false_eq_true, if_false, ih, ite_self]

theorem searchBefore_never (less : α → α → Bool) (hless : ∀ x y, less x y = false)
    (data : List α) (m : Nat) : ∀ (fuel i j : Nat), i ≤ j → j - i ≤ fuel →
      searchBefore less data m fuel i j = j := by
  intro fuel
  induction fuel with
  | zero => intro i j h1 h2; simp only [searchBefore]; omega
  | succ fuel ih =>
    intro i j h1 h2
    simp only [searchBefore, Less, hless, Bool.not_false, if_true]
    by_cases hlt : i < j
    · rw [if_pos hlt]
      exact ih _ _ (by omega) (by omega)
    · rw [if_neg hlt]; omega

theorem searchSplit_never (less : α → α → Bool) (hless : ∀ x y, less x y = false)
    (data : List α) (p : Nat) : ∀ (fuel start r : Nat), start ≤ r → r - start ≤ fuel →
      searchSplit less data p fuel start r = r := by
  intro fuel
  induction fuel with
  | zero => intro i j h1 h2; simp only [searchSplit]; omega
  | succ fuel ih =>
    intro i j h1 h2
    simp only [searchSplit, Less, hless, Bool.not_false, if_true]
    by_cases hlt : i < j
    · rw [if_pos hlt]
      exact ih _ _ (by omega) (by omega)
    · rw [if_neg hlt]; omega

theorem shiftUp_stop (i fuel k : Nat) (data : List α) (h : i ≤ k + 1) :
    shiftUp i fuel k data = data := by
  cases fuel with
  | zero => rfl
  | succ fuel =>
    simp only [shiftUp]
    rw [if_neg (by omega)]

theorem shiftDown_stop (i k : Nat) (data : List α) (h : k ≤ i) : shiftDown i k data = data := by
  cases k with
  | zero => rfl
  | succ k =>
    simp only [shiftDown]
    rw [if_neg (by omega)]

theorem symMerge_never (less : α → α → Bool) (hless : ∀ x y, less x y = false) :
    ∀ (fuel : Nat) (data : List α) (a m b : Nat), a < m → m < b →
      symMerge less fuel data a m b = data := by
  intro fuel
  induction fuel with
  | zero => intro data a m b _ _; rfl
  | succ fuel ih =>
    intro data a m b ham hmb
    rw [symMerge]
    by_cases hma : m - a = 1
    · rw [if_pos hma]
      simp only [searchAfter_never less hless]
      exact shiftUp_stop _ _ _ _ (by omega)
    · rw [if_neg hma]
      by_cases hbm : b - m = 1
      · rw [if_pos hbm]
        simp only [searchBefore_never less hless data m (m - a) a m (by omega) (le_refl _)]
        exact shiftDown_stop _ _ _ (le_refl _)
      · rw [if_neg hbm]
        simp only []
        by_cases hm : m > (a + b) / 2
        · simp only [hm, if_true]
          rw [searchSplit_never less hless data _ _ _ _ (by omega) (le_refl _)]
          have e1 : (a + b) / 2 + m - (a + b) / 2 = m := by omega
          simp only [e1, lt_irrefl, decide_False, Bool.and_false, Bool.false_eq_true, if_false]
          by_cases hc : (decide ((a + b) / 2 < m) && decide (m < b)) = true
          · rw [if_pos hc]
            exact ih _ _ _ _ (by omega) hmb
          · rw [if_neg hc]
        · simp only [hm, if_false]
          rw [searchSplit_never less hless data _ _ _ _ (by omega) (le_refl _)]
          have e1 : (a + b) / 2 + m - m = (a + b) / 2 := by omega
          simp only [e1, lt_irrefl, decide_False, Bool.and_false, Bool.false_and,
            Bool.false_eq_true, if_false]
          by_cases hc : (decide (a < m) && decide (m < (a + b) / 2)) = true
          · rw [if_pos hc]
            simp only [Bool.and_eq_true, decide_eq_true_eq] at hc
            exact ih _ _ _ _ ham hc.2
          · rw [if_neg hc]

theorem stableBlocks_never (less : α → α → Bool) (hless : ∀ x y, less x y = false)
    (n bs : Nat) : ∀ (fuel : Nat) (data : List α) (a b : Nat),
      (stableBlocks less n bs fuel data a b).1 = data := by
  intro fuel
  induction fuel with
  | zero => intro data a b; rfl
  | succ fuel ih =>
    intro data a b
    simp only [stableBlocks, insertionSort_never less hless]
    split
    · exact ih _ _ _
    · rfl

theorem stablePass_never (less : α → α → Bool) (hless : ∀ x y, less x y = false)
    (n bs : Nat) (hbs : 0 < bs) : ∀ (fuel : Nat) (data : List α) (a b : Nat), b = a + 2 * bs →
      (stablePass less n bs fuel data a b).1 = data ∧
        ∃ t, (stablePass less n bs fuel data a b).2 = a + t := by
  intro fuel
  induction fuel with
  | zero => intro data a b _; exact ⟨rfl, 0, rfl⟩
  | succ fuel ih =>
    intro data a b hb
    simp only [stablePass]
    split
    · rw [symMerge_never less hless _ _ _ _ _ (by omega) (by omega)]
      obtain ⟨h1, t, h2⟩ := ih data b (b + 2 * bs) rfl
      exact ⟨h1, t + 2 * bs, by rw [h2]; omega⟩
    · exact ⟨rfl, 0, rfl⟩

theorem stableRounds_never (less : α → α → Bool) (hless : ∀ x y, less x y = false)
    (n : Nat) : ∀ (fuel : Nat) (data : List α) (bs : Nat), 0 < bs →
      stableRounds less n fuel data bs = data := by
  intro fuel
  induction fuel with
  | zero => intro data bs _; rfl
  | succ fuel ih =>
    intro data bs hbs
    simp only [stableRounds]
    split
    · obtain ⟨h1, t, h2⟩ := stablePass_never less hless n bs hbs n data 0 (2 * bs) (by omega)
      rw [h1]
      have : (if (stablePass less n bs n data 0 (2 * bs)).2 + bs < n then
          symMerge less (n - (stablePass less n bs n data 0 (2 * bs)).2) data
            (stablePass less n bs n data 0 (2 * bs)).2
            ((stablePass less n bs n data 0 (2 * bs)).2 + bs) n
          else data) = data := by
        split
        · exact symMerge_never less hless _ _ _ _ _ (by omega) (by assumption)
        · rfl
      rw [this]
      exact ih data (bs * 2) (by omega)
    · rfl

/-- With a comparison that never answers true, `sort.SliceStable` leaves the slice as it is. -/
theorem SliceStable_never (less : α → α → Bool) (hless : ∀ x y, less x y = false)
    (x : List α) : SliceStable x less = x := by
  simp only [SliceStable, stable, stableBlocks_never less hless, insertionSort_never less hless]
  exact stableRounds_never less hless _ _ _ _ (by omega)

end SortProofs

/-! ## Theorems about `gui/models.go` -/

theorem Compat_lt {κ : Type} [LinearOrder κ] (key : MarketOrderDB → κ) :
    Compat (fun a b => decide (key a < key b)) (fun a b => key a ≤ key b) where
  trans := fun _ _ _ h₁ h₂ => le_trans h₁ h₂
  of_less := fun _ _ h => le_of_lt (of_decide_eq_true h)
  of_not_less := fun _ _ h => not_lt.mp (of_decide_eq_false h)

theorem Compat_not_lt {κ : Type} [LinearOrder κ] (key : MarketOrderDB → κ) :
    Compat (fun a b => !decide (key a < key b)) (fun a b => key b ≤ key a) where
  trans := fun _ _ _ h₁ h₂ => le_trans h₂ h₁
  of_less := fun x y h => by
    have : decide (key x < key y) = false := by simpa using h
    exact not_lt.mp (of_decide_eq_false this)
  of_not_less := fun x y h => by
    have : decide (key x < key y) = true := by simpa using h
    exact le_of_lt (of_decide_eq_true this)

theorem Compat_sortLess_ascending (col : Int) (h0 : 0 ≤ col) (h8 : col ≤ 8) :
    Compat (sortLess SortAscending col) (fun a b => colLE col a b) := by
  interval_cases col
  · exact Compat_lt (fun r => r.OrderID)
  · exact Compat_lt (fun r => r.ItemID)
  · exact Compat_lt (fun r => r.LocationID)
  · exact Compat_lt (fun r => r.QualityLevel)
  · exact Compat_lt (fun r => r.EnchantmentLevel)
  · exact Compat_lt (fun r => r.Price)
  · exact Compat_lt (fun r => r.Amount)
  · exact Compat_lt (fun r => r.AuctionType)
  · exact Compat_lt (fun r => r.CapturedAt)

theorem sortLess_descending (order : SortOrder) (col : Int) (ho : order ≠ SortAscending) :
    sortLess order col = fun a b =>
      if col = 0 then !decide (a.OrderID < b.OrderID)
      else if col = 1 then !decide (a.ItemID < b.ItemID)
      else if col = 2 then !decide (a.LocationID < b.LocationID)
      else if col = 3 then !decide (a.QualityLevel < b.QualityLevel)
      else if col = 4 then !decide (a.EnchantmentLevel < b.EnchantmentLevel)
      else if col = 5 then !decide (a.Price < b.Price)
      else if col = 6 then !decide (a.Amount < b.Amount)
      else if col = 7 then !decide (a.AuctionType < b.AuctionType)
      else if col = 8 then !decide (a.CapturedAt < b.CapturedAt)
      else false := by
  funext a b
  simp only [sortLess, ho, if_false]

theorem Compat_sortLess_descending (order : SortOrder) (col : Int) (ho : order ≠ SortAscending)
    (h0 : 0 ≤ col) (h8 : col ≤ 8) :
    Compat (sortLess order col) (fun a b => colLE col b a) := by
  rw [sortLess_descending order col ho]
  interval_cases col
  · exact Compat_not_lt (fun r => r.OrderID)
  · exact Compat_not_lt (fun r => r.ItemID)
  · exact Compat_not_lt (fun r => r.LocationID)
  · exact Compat_not_lt (fun r => r.QualityLevel)
  · exact Compat_not_lt (fun r => r.EnchantmentLevel)
  · exact Compat_not_lt (fun r => r.Price)
  · exact Compat_not_lt (fun r => r.Amount)
  · exact Compat_not_lt (fun r => r.AuctionType)
  · exact Compat_not_lt (fun r => r.CapturedAt)

theorem sortLess_other_column (order : SortOrder) (col : Int) (h : ¬(0 ≤ col ∧ col ≤ 8))
    (a b : MarketOrderDB) : sortLess order col a b = false := by
  have h0 : col ≠ 0 := by omega
  have h1 : col ≠ 1 := by omega
  have h2 : col ≠ 2 := by omega
  have h3 : col ≠ 3 := by omega
  have h4 : col ≠ 4 := by omega
  have h5 : col ≠ 5 := by omega
  have h6 : col ≠ 6 := by omega
  have h7 : col ≠ 7 := by omega
  have h8 : col ≠ 8 := by omega
  simp only [sortLess, h0, h1, h2, h3, h4, h5, h6, h7, h8, if_false]

/-- Claim C8: after `MarketOrderModel.Sort(col, order)` the rows are a permutation of the rows
before the call; for a column 0 to 8 they are arranged by the key of that column, non-decreasing when
`order` is `walk.SortAscending` and non-increasing for any other order (`walk.SortDescending`);
for a column outside 0 to 8 the rows are left as they were. -/
theorem Sort_arranges_rows (m : MarketOrderModel) (col : Int) (order : SortOrder) :
    (m.Sort col order).orders.Perm m.orders ∧
      (0 ≤ col ∧ col ≤ 8 → order = SortAscending →
        (m.Sort col order).orders.Pairwise (fun a b => colLE col a b)) ∧
      (0 ≤ col ∧ col ≤ 8 → order ≠ SortAscending →
        (m.Sort col order).orders.Pairwise (fun a b => colLE col b a)) ∧
      (¬(0 ≤ col ∧ col ≤ 8) → (m.Sort col order).orders = m.orders) := by
  have hout : ¬(0 ≤ col ∧ col ≤ 8) → (m.Sort col order).orders = m.orders := fun h =>
    SliceStable_never _ (sortLess_other_column order col h) m.orders
  refine ⟨?_, ?_, ?_, hout⟩
  · by_cases hcol : 0 ≤ col ∧ col ≤ 8
    · by_cases ho : order = SortAscending
      · subst ho
        exact (SliceStable_spec (Compat_sortLess_ascending col hcol.1 hcol.2) m.orders).2
      · exact (SliceStable_spec (Compat_sortLess_descending order col ho hcol.1 hcol.2)
          m.orders).2
    · rw [hout hcol]
  · intro hcol ho
    subst ho
    exact (SliceStable_spec (Compat_sortLess_ascending col hcol.1 hcol.2) m.orders).1
  · intro hcol ho
    exact (SliceStable_spec (Compat_sortLess_descending order col ho hcol.1 hcol.2) m.orders).1

theorem Sort_arranges_rows_witness :
    (sampleModel.Sort 5 SortAscending).orders.Pairwise (fun a b => colLE 5 a b) ∧
      (sampleModel.Sort 5 SortDescending).orders.Pairwise (fun a b => colLE 5 b a) ∧
      (sampleModel.Sort 5 SortDescending).orders.map (fun r => r.Price) = [7, 6, 5] ∧
      (sampleModel.Sort 9 SortDescending).orders = sampleModel.orders :=
  ⟨(Sort_arranges_rows sampleModel 5 SortAscending).2.1 (by decide) rfl,
    (Sort_arranges_rows sampleModel 5 SortDescending).2.2.1 (by decide) (by decide),
    by decide,
    (Sort_arranges_rows sampleModel 9 SortDescending).2.2.2 (by decide)⟩

/-- Claim C9: for a timestamp made of an 11-byte date part (`YYYY-MM-DD` and the separating
space), an 8-byte time part (`HH:MM:SS`) and any remainder, `formatTime` returns exactly the time
part, bytes 11 up to 19; a string shorter than 19 bytes is returned unchanged. -/
theorem formatTime_extracts_time (date time rest ts : GoString) (hd : date.length = 11)
    (ht : time.length = 8) (hs : ts.length < 19) :
    formatTime (date ++ time ++ rest) = time ∧
      formatTime (date ++ time ++ rest) = ((date ++ time ++ rest).take 19).drop 11 ∧
      formatTime ts = ts := by
  have hlen : (date ++ time ++ rest).length ≥ 19 := by
    simp only [List.length_append]; omega
  have h1 : formatTime (date ++ time ++ rest) = ((date ++ time ++ rest).take 19).drop 11 := by
    simp only [formatTime, hlen, if_true]
  have h2 : ((date ++ time ++ rest).take 19).drop 11 = time := by
    have e : (date ++ time ++ rest).take 19 = date ++ time := by
      rw [List.take_append_of_le_length (by simp only [List.length_append]; omega)]
      exact List.take_of_length_le (by simp only [List.length_append]; omega)
    rw [e, List.drop_append_of_le_length (by omega)]
    rw [List.drop_of_length_le (by omega)]
    rfl
  refine ⟨h1.trans h2, h1, ?_⟩
  simp only [formatTime]
  rw [if_neg (by omega)]

theorem formatTime_extracts_time_witness :
    formatTime (ascii "2025-11-30 10:30:15.123") = ascii "10:30:15" ∧
      formatTime (ascii "2025-11-30 10:30:15.123") =
        ((ascii "2025-11-30 10:30:15.123").take 19).drop 11 ∧
      formatTime (ascii "10:30") = ascii "10:30" :=
  formatTime_extracts_time (ascii "2025-11-30 ") (ascii "10:30:15") (ascii ".123")
    (ascii "10:30") (by decide) (by decide) (by decide)

/-- Claim C10 (the code departs from the claim): for `n = 1234567890` the result is
`1234,567,890`, whose first group has four digits; the third branch of `formatNumber` prints
`n/1000000` ungrouped. -/
theorem formatNumber_billion :
    formatNumber 1234567890 = ascii "1234,567,890" ∧
      ((formatNumber 1234567890).takeWhile (fun c => c ≠ 44)).length = 4 := by
  decide


end AlbionData
